import Mathlib

/-!
Verification development for the `rung` stacked-branch tool.

The definitions below are shallow embeddings of the Rust sources:

* `crates/rung-core/src/branch_name.rs` (slugify, branch-name validation),
* `crates/rung-git/src/repository.rs` (remote-URL parsing, cleanliness,
  branch/reset primitives),
* `crates/rung-core/src/sync.rs` (plan / execute / continue / abort / undo),
* `crates/rung-cli/src/commands/create.rs` and `merge.rs`.

Strings are modelled as Lean `String` / `List Char` (a Rust `&str` as its
sequence of Unicode scalar values; the byte positions the Rust code computes
address the same characters).  Rust's Unicode `char::to_lowercase` and
`char::is_alphanumeric` are modelled by `Char.toLower` / `Char.isAlphanum`.

Effectful operations are embedded as explicit state passing over a `Git`
(local repository) and a `Store` (the `rung/` state directory) value;
outcomes of external processes (actual `git rebase` runs, forge HTTP calls)
enter through oracle parameters.  Functions that the source orders
temporally also return a list of `Event`s in execution order, so ordering
claims become statements about traces.

The crate `rung-core` declares modules `stack`, `state` and `error` whose
files are not part of the source snapshot; the corresponding definitions
(`Stack`, `SyncState`, the `Store` operations) are modelled from the
specification and carry a `Modelled from the spec` note in their doc
comments.
-/

namespace Rung

/-! ## Generic association lists -/

/-- Association-list lookup on string keys, first match wins
(models `git2` ref lookup and `HashMap::get`). -/
def alookup {β : Type} (l : List (String × β)) (k : String) : Option β :=
  match l with
  | [] => none
  | (k', v) :: rest => if k' = k then some v else alookup rest k

/-- Association-list update; updates the first binding of the key, or
appends a new binding (models a forced ref update that creates the ref
when absent). -/
def aupdate (l : List (String × String)) (k v : String) : List (String × String) :=
  match l with
  | [] => [(k, v)]
  | (k', v') :: rest => if k' = k then (k, v) :: rest else (k', v') :: aupdate rest k v

/-! ## Errors (`rung-core`, `rung-git`)

The module `rung-core/src/error.rs` is not part of the snapshot; the
variants are modelled from the specification's error taxonomy (§7) and from
the constructor applications visible in the sources. -/

/-- Error kinds raised by the embedded operations. -/
inductive Err where
  | notInitialized
  | invalidBranchName (name reason : String)
  | dirtyWorkingDirectory
  | detachedHead
  | branchNotFound (name : String)
  | branchAlreadyExists (name : String)
  | notInStack (name : String)
  | rebaseConflict (files : List String)
  | rebaseFailed (details : String)
  | pushFailed (details : String)
  | fetchFailed (details : String)
  | remoteNotFound (name : String)
  | invalidRemoteUrl (url : String)
  | mergeFailed (details : String)
  | noSyncInProgress
  | noBackup
  | backupNotFound (id : String)
  | commitNotFound (id : String)
  | noCreateName
  | emptyMessage
  | invalidMergeMethod (method : String)
  | updatePrFailed (pr : Nat)
deriving Repr, DecidableEq

/-! ## Slugify (`branch_name.rs`) -/

/-- Maximum length for generated branch names (`MAX_BRANCH_NAME_LENGTH`). -/
def MAX_BRANCH_NAME_LENGTH : Nat := 50

/-- Character step of `slugify` after lowercasing: the Rust code maps
every character of the lowercased first line that `is_alphanumeric`
rejects to `'-'`. -/
def slugChar (isAlnum : Char → Bool) (c : Char) : Char :=
  if isAlnum c then c else '-'

/-- Core of `slugify` before truncation: lowercase the line
(`str::to_lowercase`), replace non-alphanumeric characters by `'-'`, then
`split('-')`, drop empty segments and `join("-")` (collapsing runs and
trimming boundary hyphens).  `lowerStr` and `isAlnum` stand for Rust's
`str::to_lowercase` and `char::is_alphanumeric`: both consult the
standard library's Unicode tables, which are not part of this repository,
so they enter the embedding as parameters.  `lowerStr` is string-level,
as in Rust, where one character may lower to several characters and Greek
capital sigma lowers by context; theorems constrain the two parameters
only by documented properties of the Unicode functions. -/
def slugCore (lowerStr : List Char → List Char) (isAlnum : Char → Bool)
    (cs : List Char) : List Char :=
  List.intercalate ['-']
    ((((lowerStr cs).map (slugChar isAlnum)).splitOn '-').filter (fun p => ¬ p.isEmpty))

/-- Position of the last `'-'` among the first `MAX_BRANCH_NAME_LENGTH`
characters, as the Rust truncation loop computes it. -/
def lastHyphenPos (cs : List Char) : Option Nat :=
  (((cs.take MAX_BRANCH_NAME_LENGTH).enum.filter (fun p => p.2 = '-')).map (fun p => p.1)).getLast?

/-- Truncation step of `slugify`: keep slugs of at most 50 characters;
otherwise cut at the last hyphen within the limit, or hard-cut at 50. -/
def truncateSlug (slug : List Char) : List Char :=
  if slug.length ≤ MAX_BRANCH_NAME_LENGTH then slug
  else
    match lastHyphenPos slug with
    | some pos => slug.take pos
    | none => slug.take MAX_BRANCH_NAME_LENGTH

/-- Embedding of `slugify` from `branch_name.rs`: first line, lowercase,
hyphenate non-alphanumeric runs, trim, truncate; parametric in the
Unicode table functions (see `slugCore`). -/
def slugify (lowerStr : List Char → List Char) (isAlnum : Char → Bool)
    (text : List Char) : List Char :=
  truncateSlug (slugCore lowerStr isAlnum (text.takeWhile (fun c => c ≠ '\n')))

/-- The ASCII fragment of the Unicode lowercase table, used where an
executable instantiation of the parametric `slugify` is needed. -/
def asciiLowerStr (s : List Char) : List Char :=
  s.map Char.toLower

/-- String-typed wrapper for `slugify`, instantiated with the ASCII
fragment of the Unicode tables.  (`create::run` consumes it only through
hypotheses fixing the resolved name, so nothing proved about `create`
depends on this instantiation.) -/
def slugifyS (s : String) : String :=
  String.mk (slugify asciiLowerStr Char.isAlphanum s.data)

/-- A piece of a canonical slug: nonempty, and every character is
accepted by `isAlnum`, lies in the class `lowFixed` of characters fixed
under lowercasing, and is not a hyphen.  (Proof-side notion used to state
invariants of `slugCore`.) -/
def GoodPiece (isAlnum : Char → Bool) (lowFixed : Char → Prop) (p : List Char) : Prop :=
  p ≠ [] ∧ ∀ c ∈ p, isAlnum c = true ∧ lowFixed c ∧ c ≠ '-'

/-! ## Branch-name validation (`branch_name.rs::validate_branch_name`) -/

/-- Characters git forbids in ref names: space `~` `^` `:` `?` `*` `[`. -/
def isGitForbidden (c : Char) : Bool :=
  c = ' ' || c = '~' || c = '^' || c = ':' || c = '?' || c = '*' || c = '['

/-- Shell metacharacters rejected for security.  (Several are written via
their code points: 36 `$`, 59 `;`, 124 pipe, 38 `&`, 62 `>`, 60 `<`,
96 backtick, 92 backslash, 34 double quote, 39 single quote, 40 `(`,
41 `)`, 123 open brace, 125 close brace, 33 `!`.) -/
def isShellMeta (c : Char) : Bool :=
  c.toNat = 36 || c.toNat = 59 || c.toNat = 124 || c.toNat = 38 || c.toNat = 62 ||
  c.toNat = 60 || c.toNat = 96 || c.toNat = 92 || c.toNat = 34 || c.toNat = 39 ||
  c.toNat = 40 || c.toNat = 41 || c.toNat = 123 || c.toNat = 125 || c.toNat = 33

/-- Per-character loop of `validate_branch_name`: control characters,
git-forbidden characters, shell metacharacters, and the two-character
sequences `..`, `//`, `@` followed by open brace, and `/.`. -/
def validateChars (name : String) : List Char → Except Err Unit
  | [] => .ok ()
  | c :: rest =>
    if c.toNat < 32 || c.toNat = 127 then
      .error (.invalidBranchName name "branch name cannot contain control characters")
    else if isGitForbidden c then
      .error (.invalidBranchName name "branch name cannot contain git-forbidden character")
    else if isShellMeta c then
      .error (.invalidBranchName name "branch name cannot contain shell metacharacter")
    else if c = '.' && rest.head? = some '.' then
      .error (.invalidBranchName name "branch name cannot contain consecutive dots")
    else if c = '/' && rest.head? = some '/' then
      .error (.invalidBranchName name "branch name cannot contain consecutive slashes")
    else if c = '@' && rest.head? = some (Char.ofNat 123) then
      .error (.invalidBranchName name "branch name cannot contain at-brace")
    else if c = '/' && rest.head? = some '.' then
      .error (.invalidBranchName name "branch name component cannot start with dot")
    else
      validateChars name rest

/-- Embedding of `validate_branch_name`: the prefix/suffix checks in source
order, then the per-character loop. -/
def validateBranchName (cs : List Char) : Except Err Unit :=
  let name := String.mk cs
  if cs.isEmpty then
    .error (.invalidBranchName name "branch name cannot be empty")
  else if cs = ['@'] then
    .error (.invalidBranchName name "branch name cannot be at")
  else if cs.head? = some '.' then
    .error (.invalidBranchName name "branch name cannot start with dot")
  else if cs.getLast? = some '.' then
    .error (.invalidBranchName name "branch name cannot end with dot")
  else if List.isSuffixOf ".lock".data cs then
    .error (.invalidBranchName name "branch name cannot end with dot-lock")
  else if cs.head? = some '/' || cs.getLast? = some '/' then
    .error (.invalidBranchName name "branch name cannot start or end with slash")
  else
    validateChars name cs

/-- String-typed wrapper for `validate_branch_name`. -/
def validateBranchNameS (s : String) : Except Err Unit :=
  validateBranchName s.data

/-! ## Remote-URL parsing (`repository.rs::parse_github_remote`) -/

/-- Rust `str::strip_prefix` over character lists. -/
def dropPref : List Char → List Char → Option (List Char)
  | [], rest => some rest
  | _ :: _, [] => none
  | p :: ps, c :: cs => if c = p then dropPref ps cs else none

/-- Rust `str::strip_suffix` over character lists. -/
def dropSuf (suf l : List Char) : Option (List Char) :=
  (dropPref suf.reverse l.reverse).map List.reverse

/-- Rust `str::split_once` over character lists: split at the first
occurrence of the separator. -/
def splitOnce : List Char → Char → Option (List Char × List Char)
  | [], _ => none
  | c :: cs, sep =>
    if c = sep then some ([], cs)
    else (splitOnce cs sep).map (fun pr => (c :: pr.1, pr.2))

/-- The SSH prefix accepted by `parse_github_remote`. -/
def sshPre : List Char := "git@github.com:".data

/-- The HTTPS prefix accepted by `parse_github_remote`. -/
def httpsPre : List Char := "https://github.com/".data

/-- The HTTP prefix accepted by `parse_github_remote`. -/
def httpPre : List Char := "http://github.com/".data

/-- Shared tail of `parse_github_remote`: strip an optional `.git` suffix,
then split at the first slash. -/
def parseOwnerRepo (rest : List Char) : Option (List Char × List Char) :=
  splitOnce ((dropSuf ".git".data rest).getD rest) '/'

/-- Embedding of `parse_github_remote`: try the SSH form, then the HTTPS
and HTTP forms, otherwise `InvalidRemoteUrl`. -/
def parseGithubRemote (url : List Char) : Except Err (List Char × List Char) :=
  match dropPref sshPre url with
  | some rest =>
    match parseOwnerRepo rest with
    | some pr => .ok pr
    | none => .error (.invalidRemoteUrl (String.mk url))
  | none =>
    match (dropPref httpsPre url).orElse (fun _ => dropPref httpPre url) with
    | some rest =>
      match parseOwnerRepo rest with
      | some pr => .ok pr
      | none => .error (.invalidRemoteUrl (String.mk url))
    | none => .error (.invalidRemoteUrl (String.mk url))

/-- Canonical remote-URL forms as the specification words them
(§6.3): `git@github.com:<owner>/<repo>[.git]` or
`http(s)://github.com/<owner>/<repo>[.git]` with nonempty, slash-free
owner and repository names.  Spec-side definition used to state C8. -/
def CanonicalRemote (url : List Char) (o r : List Char) : Prop :=
  o ≠ [] ∧ r ≠ [] ∧ '/' ∉ o ∧ '/' ∉ r ∧
    (url = sshPre ++ o ++ '/' :: r ∨ url = sshPre ++ o ++ '/' :: r ++ ".git".data ∨
     url = httpsPre ++ o ++ '/' :: r ∨ url = httpsPre ++ o ++ '/' :: r ++ ".git".data ∨
     url = httpPre ++ o ++ '/' :: r ∨ url = httpPre ++ o ++ '/' :: r ++ ".git".data)

/-! ## Working-directory status (`repository.rs::is_clean`) -/

/-- One entry of `git2::Statuses`: the status flags of a single path. -/
structure FileStatus where
  path : String
  indexNew : Bool
  indexModified : Bool
  indexDeleted : Bool
  indexRenamed : Bool
  indexTypechange : Bool
  wtNew : Bool
  wtModified : Bool
  wtDeleted : Bool
  wtTypechange : Bool
  wtRenamed : Bool
deriving Repr, DecidableEq

/-- The status mask `is_clean` tests: any index change, or a worktree
modification/deletion/typechange/rename of a tracked file.  `WT_NEW`
(untracked) is deliberately absent. -/
def dirtyMask (e : FileStatus) : Bool :=
  e.indexNew || e.indexModified || e.indexDeleted || e.indexRenamed || e.indexTypechange ||
  e.wtModified || e.wtDeleted || e.wtTypechange || e.wtRenamed

/-- Status listing under the options `is_clean` passes
(`include_untracked(false)`): untracked paths — entries whose only
worktree state is `WT_NEW` — produce no entry. -/
def statusEntries (entries : List FileStatus) : List FileStatus :=
  entries.filter (fun e => ¬ e.wtNew)

/-- Embedding of `is_clean`: no listed entry intersects the dirty mask. -/
def isClean (entries : List FileStatus) : Bool :=
  (statusEntries entries).all (fun e => ¬ dirtyMask e)

/-- Embedding of `require_clean`. -/
def requireClean (entries : List FileStatus) : Except Err Unit :=
  if isClean entries then .ok () else .error .dirtyWorkingDirectory

/-- Spec-side notion for C7: an entry of a tracked file (not untracked)
that is staged (any index flag) or modified in the worktree. -/
def specDirtyTracked (e : FileStatus) : Bool :=
  (¬ e.wtNew) &&
    ((e.indexNew || e.indexModified || e.indexDeleted || e.indexRenamed || e.indexTypechange) ||
     (e.wtModified || e.wtDeleted || e.wtTypechange || e.wtRenamed))

/-! ## Commit identifiers -/

/-- Hex digit as `git2` accepts it. -/
def isHexDigit (c : Char) : Bool :=
  c.isDigit || (decide ('a' ≤ c) && decide (c ≤ 'f')) || (decide ('A' ≤ c) && decide (c ≤ 'F'))

/-- Model of `git2::Oid::from_str`: parses a nonempty hex string of at
most 40 digits, and the parsed id renders back to the same string. -/
def oidParse (s : String) : Option String :=
  if ¬ s.data.isEmpty ∧ s.data.length ≤ 40 ∧ s.data.all isHexDigit then some s else none

/-! ## Stack model

Modelled from the spec: `rung-core/src/stack.rs` is absent from the
snapshot.  `StackBranch` and `Stack` follow §3 of the specification and the
field accesses visible in `sync.rs`, `create.rs` and `merge.rs`
(`branches`, `name`, `parent`, `pr`, `find_branch`, `add_branch`). -/

/-- A stack entry: branch name, optional parent (none = mainline), and an
optional PR number. -/
structure StackBranch where
  name : String
  parent : Option String
  pr : Option Nat
deriving Repr, DecidableEq

/-- The persistent stack: an ordered list of `StackBranch`. -/
structure Stack where
  branches : List StackBranch
deriving Repr, DecidableEq

/-- Lookup by name (`Stack::find_branch`). -/
def Stack.findBranch (s : Stack) (name : String) : Option StackBranch :=
  s.branches.find? (fun b => b.name = name)

/-- Append a branch (`Stack::add_branch`). -/
def Stack.addBranch (s : Stack) (b : StackBranch) : Stack :=
  ⟨s.branches ++ [b]⟩

/-! ## Sync state machine state

Modelled from the spec: `rung-core/src/state.rs` is absent from the
snapshot.  `SyncState` follows §3 — "`{ backup_id, completed, current,
remaining }` … successful rebase moves `current` into `completed` and pops
from `remaining`" — and the persisted states of §8 scenario 2 (at a
conflict on the first planned branch, `sync.json` holds `current` = that
branch and `remaining` = the branches after it), which pins `new` to start
with `current` at the first planned branch.  `current_branch` is the field
name used by `sync.rs`. -/

/-- In-progress sync marker. -/
structure SyncState where
  backupId : String
  completed : List String
  currentBranch : String
  remaining : List String
deriving Repr, DecidableEq

/-- Modelled from the spec: `SyncState::new(backup_id, branches)` points
`current` at the first planned branch with the rest remaining. -/
def SyncState.new (backupId : String) (branches : List String) : SyncState :=
  { backupId := backupId, completed := [], currentBranch := branches.headD "",
    remaining := branches.tail }

/-- Modelled from the spec: `advance` moves `current` into `completed` and
pops the next remaining branch into `current`. -/
def SyncState.advance (ss : SyncState) : SyncState :=
  { backupId := ss.backupId, completed := ss.completed ++ [ss.currentBranch],
    currentBranch := ss.remaining.headD "", remaining := ss.remaining.tail }

/-! ## State store

Modelled from the spec: `rung-core/src/state.rs` is absent from the
snapshot.  The store holds `stack.json`, the optional `sync.json` and the
`backups/<id>.json` files (§4.3, §6.1); backup ids are time-sortable and
created in order, so the latest backup is the last created one. -/

/-- The on-disk state under `<repo>/.git/rung/`. -/
structure Store where
  initialized : Bool
  stack : Stack
  sync : Option SyncState
  backups : List (String × List (String × String))
deriving Repr, DecidableEq

/-- Modelled from the spec: `save_sync_state`. -/
def Store.saveSync (s : Store) (ss : SyncState) : Store :=
  { s with sync := some ss }

/-- Modelled from the spec: `clear_sync_state` (removes `sync.json`). -/
def Store.clearSync (s : Store) : Store :=
  { s with sync := none }

/-- Modelled from the spec: `create_backup` persists the entries under a
fresh id (passed in by the caller of the embedding). -/
def Store.createBackup (s : Store) (id : String) (entries : List (String × String)) : Store :=
  { s with backups := s.backups ++ [(id, entries)] }

/-- Modelled from the spec: `load_backup`. -/
def Store.loadBackup (s : Store) (id : String) : Option (List (String × String)) :=
  alookup s.backups id

/-- Modelled from the spec: `delete_backup`. -/
def Store.deleteBackup (s : Store) (id : String) : Store :=
  { s with backups := s.backups.filter (fun p => p.1 ≠ id) }

/-- Modelled from the spec: `latest_backup` — ids are lexicographically
time-sortable and appended in creation order, so the latest is the last. -/
def Store.latestBackup (s : Store) : Option String :=
  (s.backups.map (fun p => p.1)).getLast?

/-- Modelled from the spec: `save_stack` (atomic replace of `stack.json`). -/
def Store.saveStack (s : Store) (st : Stack) : Store :=
  { s with stack := st }

/-! ## Local repository (`rung-git`) -/

/-- State of the local git repository visible to the embedded operations. -/
structure Git where
  branches : List (String × String)
  remoteBranches : List (String × String)
  current : Option String
  rebasing : Bool
  objects : List String
  originUrl : Option String
  statuses : List FileStatus
deriving Repr, DecidableEq

/-- Embedding of `branch_commit`: the tip of a local branch. -/
def Git.branchCommit (g : Git) (name : String) : Except Err String :=
  match alookup g.branches name with
  | some c => .ok c
  | none => .error (.branchNotFound name)

/-- Embedding of `remote_branch_commit`: tip of `refs/remotes/origin/<name>`. -/
def Git.remoteBranchCommit (g : Git) (name : String) : Except Err String :=
  match alookup g.remoteBranches name with
  | some c => .ok c
  | none => .error (.branchNotFound ("origin/" ++ name))

/-- Embedding of `branch_exists`. -/
def Git.branchExists (g : Git) (name : String) : Bool :=
  (alookup g.branches name).isSome

/-- Embedding of `current_branch`: errors with `DetachedHead` when HEAD is
not on a branch. -/
def Git.currentBranch (g : Git) : Except Err String :=
  match g.current with
  | some b => .ok b
  | none => .error .detachedHead

/-- Embedding of `checkout`: requires the branch to exist, makes it
current. -/
def Git.checkout (g : Git) (name : String) : Except Err Git :=
  if g.branchExists name then .ok { g with current := some name }
  else .error (.branchNotFound name)

/-- Force-move a branch tip (ref update part of `reset_branch` and the
tip movement a finished rebase performs). -/
def Git.setTip (g : Git) (name c : String) : Git :=
  { g with branches := aupdate g.branches name c }

/-- Embedding of `reset_branch`: `find_commit(target)` must succeed, then
the ref is force-updated (and the worktree follows when the branch is
current — the worktree itself is not part of this state). -/
def Git.resetBranch (g : Git) (name target : String) : Except Err Git :=
  if target ∈ g.objects then .ok (g.setTip name target)
  else .error (.commitNotFound target)

/-- Embedding of `create_branch`: a new branch at the current HEAD. -/
def Git.createBranch (g : Git) (name : String) : Except Err Git :=
  match g.current with
  | none => .error .detachedHead
  | some cur =>
    match alookup g.branches cur with
    | none => .error (.branchNotFound cur)
    | some tip => .ok { g with branches := aupdate g.branches name tip }

/-- Embedding of `delete_branch`. -/
def Git.deleteBranchLocal (g : Git) (name : String) : Except Err Git :=
  if g.branchExists name then
    .ok { g with branches := g.branches.filter (fun p => p.1 ≠ name) }
  else .error (.branchNotFound name)

/-- Embedding of `fetch(branch)` with refspec `branch:refs/heads/branch`:
on success the local branch is set to the remote tip.  `ok` is the outcome
of the external `git fetch` process. -/
def Git.fetchBranch (g : Git) (ok : Bool) (name : String) : Except Err Git :=
  if ok then
    match alookup g.remoteBranches name with
    | some tip => .ok { g with branches := aupdate g.branches name tip }
    | none => .error (.fetchFailed name)
  else .error (.fetchFailed name)

/-! ## Sync engine (`sync.rs`) -/

/-- Outcome of an external rebase process. -/
inductive RebaseOutcome where
  | success (newTip : String)
  | conflict (files : List String)
  | failure (details : String)
deriving Repr, DecidableEq

/-- Oracle giving the outcome of rebasing a branch onto a target commit. -/
abbrev RebaseOracle := String → String → RebaseOutcome

/-- Result of a sync operation (`SyncResult`). -/
inductive SyncResult where
  | alreadySynced
  | complete (branchesRebased : Nat) (backupId : String)
  | paused (atBranch : String) (conflictFiles : List String) (backupId : String)
deriving Repr, DecidableEq

/-- A single rebase action in the sync plan (`SyncAction`). -/
structure SyncAction where
  branch : String
  oldBase : String
  newBase : String
deriving Repr, DecidableEq

/-- Plan for syncing a stack (`SyncPlan`). -/
structure SyncPlan where
  branches : List SyncAction
deriving Repr, DecidableEq

/-- Observable operations, recorded in execution order. -/
inductive Event where
  | createBackup (id : String) (entries : List (String × String))
  | saveSync (ss : SyncState)
  | clearSync
  | checkout (branch : String)
  | rebase (branch target : String)
  | rebaseContinue
  | rebaseAbort
  | resetBranch (branch commit : String)
  | saveStack (stack : Stack)
  | deleteBackup (id : String)
  | fetch (branch : String)
  | push (branch : String)
  | mergePr (pr : Nat)
  | updatePr (pr : Nat) (base : String)
  | rebaseFrom (branch newBase oldBase : String)
  | deleteRef (branch : String)
  | deleteBranch (branch : String)
  | createBranch (branch : String)
deriving Repr, DecidableEq

/-- Result bundle of a sync-engine run: the returned value, the final
repository and store states, and the trace of performed operations. -/
structure SyncOutcome where
  result : Except Err SyncResult
  git : Git
  store : Store
  trace : List Event
deriving Repr

/-- Backup collection of `execute_sync`: the current tip of every branch in
the plan, in plan order. -/
def collectTips (g : Git) : List SyncAction → Except Err (List (String × String))
  | [] => .ok []
  | a :: rest =>
    match g.branchCommit a.branch with
    | .error e => .error e
    | .ok c =>
      match collectTips g rest with
      | .error e => .error e
      | .ok tl => .ok ((a.branch, c) :: tl)

/-- Loop body of `create_sync_plan` over the stack's branches. -/
def createSyncPlanAux (g : Git) (mb : String → String → Option String) (base : String) :
    List StackBranch → Except Err (List SyncAction)
  | [] => .ok []
  | b :: rest =>
    let parentName := b.parent.getD base
    if ¬ g.branchExists parentName ∧ b.parent = none then
      .error (.branchNotFound parentName)
    else
      match g.branchCommit b.name with
      | .error e => .error e
      | .ok branchCommit =>
        match g.branchCommit parentName with
        | .error e => .error e
        | .ok parentCommit =>
          match mb branchCommit parentCommit with
          | none => .error (.commitNotFound branchCommit)
          | some mergeBase =>
            match createSyncPlanAux g mb base rest with
            | .error e => .error e
            | .ok tl =>
              if mergeBase ≠ parentCommit then
                .ok (⟨b.name, mergeBase, parentCommit⟩ :: tl)
              else .ok tl

/-- Embedding of `create_sync_plan`: one action per stack branch whose
merge-base with its parent differs from the parent's tip, in stack order.
`mb` is the repository's merge-base function. -/
def createSyncPlan (g : Git) (mb : String → String → Option String) (stack : Stack)
    (base : String) : Except Err SyncPlan :=
  match createSyncPlanAux g mb base stack.branches with
  | .error e => .error e
  | .ok actions => .ok ⟨actions⟩

/-- Rebase loop of `execute_sync`: checkout each planned branch, parse the
target commit, rebase via the oracle; advance and save the sync state on
success, save and pause on conflict, abort and clear on any other error. -/
def executeSyncLoop (oracle : RebaseOracle) (backupId : String) (origBranch : Option String) :
    Git → Store → SyncState → List SyncAction → SyncOutcome
  | g, store, ss, [] =>
    let store' := store.clearSync
    match origBranch with
    | some b =>
      match g.checkout b with
      | .ok g' =>
        ⟨.ok (.complete ss.completed.length backupId), g', store', [.clearSync, .checkout b]⟩
      | .error _ =>
        ⟨.ok (.complete ss.completed.length backupId), g, store', [.clearSync]⟩
    | none => ⟨.ok (.complete ss.completed.length backupId), g, store', [.clearSync]⟩
  | g, store, ss, action :: rest =>
    match g.checkout action.branch with
    | .error e => ⟨.error e, g, store, []⟩
    | .ok g1 =>
      match oidParse action.newBase with
      | none =>
        ⟨.error (.rebaseFailed action.branch), g1, store, [.checkout action.branch]⟩
      | some target =>
        match oracle action.branch target with
        | .success newTip =>
          let g2 := g1.setTip action.branch newTip
          let ss' := ss.advance
          let store' := store.saveSync ss'
          let out := executeSyncLoop oracle backupId origBranch g2 store' ss' rest
          ⟨out.result, out.git, out.store,
            .checkout action.branch :: .rebase action.branch target :: .saveSync ss' :: out.trace⟩
        | .conflict files =>
          ⟨.ok (.paused action.branch files backupId), { g1 with rebasing := true },
            store.saveSync ss,
            [.checkout action.branch, .rebase action.branch target, .saveSync ss]⟩
        | .failure _ =>
          ⟨.error (.rebaseFailed action.branch), { g1 with rebasing := false },
            store.clearSync,
            [.checkout action.branch, .rebase action.branch target, .rebaseAbort, .clearSync]⟩

/-- Embedding of `execute_sync`: empty plans return `AlreadySynced`
untouched; otherwise back up every planned branch's tip, save the initial
`SyncState`, and run the rebase loop.  `freshId` is the backup id the
state store generates. -/
def executeSync (oracle : RebaseOracle) (g : Git) (store : Store) (freshId : String)
    (plan : SyncPlan) : SyncOutcome :=
  if plan.branches.isEmpty then ⟨.ok .alreadySynced, g, store, []⟩
  else
    match collectTips g plan.branches with
    | .error e => ⟨.error e, g, store, []⟩
    | .ok entries =>
      let store1 := store.createBackup freshId entries
      let origBranch := (g.currentBranch).toOption
      let ss := SyncState.new freshId (plan.branches.map (fun a => a.branch))
      let store2 := store1.saveSync ss
      let out := executeSyncLoop oracle freshId origBranch g store2 ss plan.branches
      ⟨out.result, out.git, out.store,
        .createBackup freshId entries :: .saveSync ss :: out.trace⟩

/-- Remaining-branch loop of `continue_sync`: checkout, look the branch up
in the stack, rebase onto its parent's current tip. -/
def continueSyncLoop (oracle : RebaseOracle) (backupId : String) :
    Git → Store → SyncState → List String → SyncOutcome
  | g, store, ss, [] =>
    ⟨.ok (.complete ss.completed.length backupId), g, store.clearSync, [.clearSync]⟩
  | g, store, ss, name :: rest =>
    match g.checkout name with
    | .error e => ⟨.error e, g, store, []⟩
    | .ok g1 =>
      match store.stack.findBranch name with
      | none => ⟨.error (.notInStack name), g1, store, [.checkout name]⟩
      | some b =>
        let parentName := b.parent.getD "main"
        match g1.branchCommit parentName with
        | .error e => ⟨.error e, g1, store, [.checkout name]⟩
        | .ok parentCommit =>
          match oracle name parentCommit with
          | .success newTip =>
            let g2 := g1.setTip name newTip
            let ss' := ss.advance
            let store' := store.saveSync ss'
            let out := continueSyncLoop oracle backupId g2 store' ss' rest
            ⟨out.result, out.git, out.store,
              .checkout name :: .rebase name parentCommit :: .saveSync ss' :: out.trace⟩
          | .conflict files =>
            ⟨.ok (.paused name files backupId), { g1 with rebasing := true },
              store.saveSync ss,
              [.checkout name, .rebase name parentCommit, .saveSync ss]⟩
          | .failure _ =>
            ⟨.error (.rebaseFailed name), { g1 with rebasing := false }, store.clearSync,
              [.checkout name, .rebase name parentCommit, .rebaseAbort, .clearSync]⟩

/-- Embedding of `continue_sync`: load the sync state, run
`rebase_continue` (outcome `contOutcome`), then process the remaining
branches.  On a repeated conflict of the current rebase the function
returns `Paused` again without saving. -/
def continueSync (contOutcome : RebaseOutcome) (oracle : RebaseOracle) (g : Git)
    (store : Store) : SyncOutcome :=
  match store.sync with
  | none => ⟨.error .noSyncInProgress, g, store, []⟩
  | some ss =>
    let backupId := ss.backupId
    match contOutcome with
    | .success newTip =>
      let g1 :=
        match g.current with
        | some b => { g.setTip b newTip with rebasing := false }
        | none => { g with rebasing := false }
      let ss' := ss.advance
      let store' := store.saveSync ss'
      let out := continueSyncLoop oracle backupId g1 store' ss' ss'.remaining
      ⟨out.result, out.git, out.store, .rebaseContinue :: .saveSync ss' :: out.trace⟩
    | .conflict files =>
      ⟨.ok (.paused ss.currentBranch files backupId), g, store, [.rebaseContinue]⟩
    | .failure _ =>
      ⟨.error (.rebaseFailed ss.currentBranch), g, store, [.rebaseContinue]⟩

/-- Reset loop of `abort_sync` over the backup entries; on a mid-loop
failure the earlier resets persist and the error propagates. -/
def abortResets : Git → List (String × String) → (Except Err Unit) × Git × List Event
  | g, [] => (.ok (), g, [])
  | g, (name, sha) :: rest =>
    match oidParse sha with
    | none => (.error (.rebaseFailed name), g, [])
    | some oid =>
      match g.resetBranch name oid with
      | .error e => (.error e, g, [])
      | .ok g1 =>
        let out := abortResets g1 rest
        (out.1, out.2.1, .resetBranch name oid :: out.2.2)

/-- Embedding of `abort_sync`: load the sync state, abort any in-progress
rebase, reset every backed-up branch, clear the sync state.  (The source
does not delete the backup.) -/
def abortSync (g : Git) (store : Store) : (Except Err Unit) × Git × Store × List Event :=
  match store.sync with
  | none => (.error .noSyncInProgress, g, store, [])
  | some ss =>
    let g1 := if g.rebasing then { g with rebasing := false } else g
    let ev0 : List Event := if g.rebasing then [.rebaseAbort] else []
    match store.loadBackup ss.backupId with
    | none => (.error (.backupNotFound ss.backupId), g1, store, ev0)
    | some entries =>
      match abortResets g1 entries with
      | (.error e, g2, ev) => (.error e, g2, store, ev0 ++ ev)
      | (.ok _, g2, ev) => (.ok (), g2, store.clearSync, ev0 ++ ev ++ [.clearSync])

/-- Embedding of `undo_sync` as the source has it: find the latest backup,
load it, delete it — the reset loop is an unimplemented TODO, so no branch
is reset. -/
def undoSync (g : Git) (store : Store) : (Except Err Unit) × Git × Store × List Event :=
  match store.latestBackup with
  | none => (.error .noBackup, g, store, [])
  | some backupId =>
    match store.loadBackup backupId with
    | none => (.error (.backupNotFound backupId), g, store, [])
    | some _refs =>
      (.ok (), g, store.deleteBackup backupId, [.deleteBackup backupId])

/-! ## `rung create` (`commands/create.rs`) -/

/-- Name resolution of `create`: an explicit name wins, otherwise the
slugified message, otherwise an error. -/
def resolveCreateName : Option String → Option String → Option String
  | some n, _ => some n
  | none, some m => some (slugifyS m)
  | none, none => none

/-- Message content check of `create`: a provided message whose slug is
empty is rejected even when the name was given explicitly. -/
def msgEmptyCheck : Option String → Bool
  | some m => (slugifyS m).data.isEmpty
  | none => false

/-- Modelled from the spec: `stage_all` is declared on the repository but
its body is not in the snapshot; staging moves every worktree change of an
entry into the index. -/
def stageEntry (e : FileStatus) : FileStatus :=
  { e with
    indexNew := e.indexNew || e.wtNew,
    indexModified := e.indexModified || e.wtModified,
    indexDeleted := e.indexDeleted || e.wtDeleted,
    indexTypechange := e.indexTypechange || e.wtTypechange,
    indexRenamed := e.indexRenamed || e.wtRenamed,
    wtNew := false, wtModified := false, wtDeleted := false,
    wtTypechange := false, wtRenamed := false }

/-- Modelled from the spec: `stage_all` (`git add -A` analogue). -/
def Git.stageAll (g : Git) : Git :=
  { g with statuses := g.statuses.map stageEntry }

/-- Modelled from the spec: `has_staged_changes` — some entry carries an
index flag. -/
def Git.hasStagedChanges (g : Git) : Bool :=
  g.statuses.any (fun e =>
    e.indexNew || e.indexModified || e.indexDeleted || e.indexRenamed || e.indexTypechange)

/-- Modelled from the spec: `create_commit` — commit the staged changes on
the current branch, advancing its tip to a fresh commit id. -/
def Git.createCommit (g : Git) (freshOid : String) : Except Err Git :=
  match g.current with
  | none => .error .detachedHead
  | some b => .ok { g.setTip b freshOid with statuses := [], objects := freshOid :: g.objects }

/-- Embedding of `create::run`: resolve and validate the name, check the
message, require an initialized store, read and validate the parent
(current) branch, refuse existing branches, create the branch, append it
to the stack and save, check the new branch out, and optionally commit the
staged working-tree changes. -/
def createRun (g : Git) (store : Store) (freshOid : String)
    (nameArg messageArg : Option String) : (Except Err Unit) × Git × Store :=
  match resolveCreateName nameArg messageArg with
  | none => (.error .noCreateName, g, store)
  | some name =>
    match validateBranchNameS name with
    | .error e => (.error e, g, store)
    | .ok _ =>
      if msgEmptyCheck messageArg then (.error .emptyMessage, g, store)
      else if ¬ store.initialized then (.error .notInitialized, g, store)
      else
        match g.currentBranch with
        | .error e => (.error e, g, store)
        | .ok parent =>
          match validateBranchNameS parent with
          | .error e => (.error e, g, store)
          | .ok _ =>
            if g.branchExists name then (.error (.branchAlreadyExists name), g, store)
            else
              match g.createBranch name with
              | .error e => (.error e, g, store)
              | .ok g1 =>
                let store1 := store.saveStack (store.stack.addBranch ⟨name, some parent, none⟩)
                match g1.checkout name with
                | .error e => (.error e, g1, store1)
                | .ok g2 =>
                  match messageArg with
                  | none => (.ok (), g2, store1)
                  | some _ =>
                    if isClean g2.statuses then (.ok (), g2, store1)
                    else
                      let g3 := g2.stageAll
                      if g3.hasStagedChanges then
                        match g3.createCommit freshOid with
                        | .error e => (.error e, g3, store1)
                        | .ok g4 => (.ok (), g4, store1)
                      else (.ok (), g3, store1)

/-! ## `rung merge` (`commands/merge.rs`) -/

/-- Outcomes of the forge and external-process calls `merge::run` makes. -/
structure ForgeOracle where
  mergeOk : Bool
  fetchOk : Bool
  updatePrOk : Nat → Bool
  rebaseFrom : String → String → String → RebaseOutcome
  pushOk : String → Bool
  deleteRefOk : Bool

/-- Merge-method parsing of `merge::run` (Rust `to_lowercase`, modelled
per character as elsewhere in this file). -/
def validMergeMethod (m : String) : Bool :=
  let ml := String.mk (m.data.map Char.toLower)
  ml = "squash" || ml = "merge" || ml = "rebase"

/-- Worklist loop of `collect_descendants`: the Rust code pops from the
end of its queue vector, which the head of `queue` models; `fuel` bounds
the iteration count of the source's `while` loop. -/
def collectDescendantsAux (stack : Stack) : Nat → List String → List String → List String
  | 0, _, desc => desc
  | _ + 1, [], desc => desc
  | fuel + 1, parent :: queue, desc =>
    let children := (stack.branches.filter (fun b => b.parent = some parent)).map
      (fun b => b.name)
    collectDescendantsAux stack fuel (children.reverse ++ queue) (desc ++ children)

/-- Embedding of `collect_descendants`. -/
def collectDescendants (stack : Stack) (root : String) (fuel : Nat) : List String :=
  collectDescendantsAux stack fuel [root] []

/-- Tip lookup over a list of branch names. -/
def collectTipNames (g : Git) : List String → Except Err (List (String × String))
  | [] => .ok []
  | n :: rest =>
    match g.branchCommit n with
    | .error e => .error e
    | .ok c =>
      match collectTipNames g rest with
      | .error e => .error e
      | .ok tl => .ok ((n, c) :: tl)

/-- Pre-merge tip capture of `merge::run`: the current branch's tip and
every descendant's tip, before any rebase. -/
def collectOldCommits (g : Git) (cur : String) (descs : List String) :
    Except Err (List (String × String)) :=
  match g.branchCommit cur with
  | .error e => .error e
  | .ok c0 =>
    match collectTipNames g descs with
    | .error e => .error e
    | .ok rest => .ok ((cur, c0) :: rest)

/-- Stack reconciliation `merge::run` persists right after the forge
merge: re-parent every direct child of the merged branch to its parent and
drop the merged branch. -/
def stackAfterMerge (stack : Stack) (cur par : String) : Stack :=
  ⟨(stack.branches.map (fun b =>
      if b.parent = some cur then { b with parent := some par } else b)).filter
    (fun b => b.name ≠ cur)⟩

/-- Result bundle of `merge::run`. -/
structure MergeOutcome where
  result : Except Err Unit
  git : Git
  store : Store
  trace : List Event

/-- PR-base update step of the descendant loop (`update_pr` before any
ref is deleted); branches without a PR skip it. -/
def mergeUpdatePr (oracle : ForgeOracle) (pr : Option Nat) (newBase : String) :
    (Except Err Unit) × List Event :=
  match pr with
  | some n =>
    if oracle.updatePrOk n then (.ok (), [.updatePr n newBase])
    else (.error (.updatePrFailed n), [])
  | none => (.ok (), [])

/-- Descendant loop of `merge::run`: look the branch up in the pre-merge
stack, update its PR base first, check it out, rebase `--onto` the new
base from the old parent tip, and force-push; any rebase error aborts the
loop. -/
def mergeDescLoop (stack0 : Stack) (cur par : String) (oracle : ForgeOracle)
    (oldCommits : List (String × String)) :
    Git → List String → (Except Err Unit) × Git × List Event
  | g, [] => (.ok (), g, [])
  | g, d :: rest =>
    match stack0.findBranch d with
    | none => (.error (.notInStack d), g, [])
    | some bi =>
      let stackParent := bi.parent.getD "main"
      let newBase := if stackParent = cur then par else stackParent
      match mergeUpdatePr oracle bi.pr newBase with
      | (.error e, ev) => (.error e, g, ev)
      | (.ok _, ev) =>
        match g.checkout d with
        | .error e => (.error e, g, ev)
        | .ok g1 =>
          let ev1 := ev ++ [.checkout d]
          match (if newBase = par then g1.remoteBranchCommit newBase
                 else g1.branchCommit newBase) with
          | .error e => (.error e, g1, ev1)
          | .ok newBaseCommit =>
            match alookup oldCommits stackParent with
            | none => (.error (.branchNotFound stackParent), g1, ev1)
            | some oldBaseCommit =>
              match oracle.rebaseFrom d newBaseCommit oldBaseCommit with
              | .conflict _ =>
                (.error (.rebaseFailed d), { g1 with rebasing := true },
                  ev1 ++ [.rebaseFrom d newBaseCommit oldBaseCommit])
              | .failure _ =>
                (.error (.rebaseFailed d), g1,
                  ev1 ++ [.rebaseFrom d newBaseCommit oldBaseCommit])
              | .success newTip =>
                let g2 := g1.setTip d newTip
                let ev2 := ev1 ++ [.rebaseFrom d newBaseCommit oldBaseCommit]
                if oracle.pushOk d then
                  let out := mergeDescLoop stack0 cur par oracle oldCommits g2 rest
                  (out.1, out.2.1, ev2 ++ [.push d] ++ out.2.2)
                else (.error (.pushFailed d), g2, ev2)

/-- Embedding of `merge::run`: validate, look up the current branch, its
PR and parent, parse the origin remote, collect descendants and pre-merge
tips, merge the PR on the forge, persist the reconciled stack immediately,
fetch the parent, process each descendant, delete the remote branch
(best effort, unless `no_delete`), then check out the parent and delete
the local branch (best effort). -/
def mergeRun (g : Git) (store : Store) (oracle : ForgeOracle) (fuel : Nat)
    (method : String) (noDelete : Bool) : MergeOutcome :=
  if ¬ validMergeMethod method then ⟨.error (.invalidMergeMethod method), g, store, []⟩
  else if ¬ store.initialized then ⟨.error .notInitialized, g, store, []⟩
  else
    match g.currentBranch with
    | .error e => ⟨.error e, g, store, []⟩
    | .ok cur =>
      match store.stack.findBranch cur with
      | none => ⟨.error (.notInStack cur), g, store, []⟩
      | some bi =>
        match bi.pr with
        | none => ⟨.error (.mergeFailed cur), g, store, []⟩
        | some prNum =>
          let par := bi.parent.getD "main"
          match g.originUrl with
          | none => ⟨.error (.remoteNotFound "origin"), g, store, []⟩
          | some url =>
            match parseGithubRemote url.data with
            | .error e => ⟨.error e, g, store, []⟩
            | .ok _ =>
              let descs := collectDescendants store.stack cur fuel
              match collectOldCommits g cur descs with
              | .error e => ⟨.error e, g, store, []⟩
              | .ok oldCommits =>
                if ¬ oracle.mergeOk then ⟨.error (.mergeFailed cur), g, store, []⟩
                else
                  let stack2 := stackAfterMerge store.stack cur par
                  let store1 := store.saveStack stack2
                  let ev0 : List Event := [.mergePr prNum, .saveStack stack2]
                  match g.fetchBranch oracle.fetchOk par with
                  | .error e => ⟨.error e, g, store1, ev0⟩
                  | .ok gf =>
                    let ev1 := ev0 ++ [.fetch par]
                    match mergeDescLoop store.stack cur par oracle oldCommits gf descs with
                    | (.error e, g2, ev) => ⟨.error e, g2, store1, ev1 ++ ev⟩
                    | (.ok _, g2, ev) =>
                      let evDel : List Event :=
                        if noDelete then []
                        else if oracle.deleteRefOk then [.deleteRef cur] else []
                      match g2.checkout par with
                      | .error e => ⟨.error e, g2, store1, ev1 ++ ev ++ evDel⟩
                      | .ok g3 =>
                        let ev2 := ev1 ++ ev ++ evDel ++ [.checkout par]
                        match g3.deleteBranchLocal cur with
                        | .ok g4 => ⟨.ok (), g4, store1, ev2 ++ [.deleteBranch cur]⟩
                        | .error _ => ⟨.ok (), g3, store1, ev2⟩

end Rung

namespace Rung

/-! ## Concrete sample states (used by closed theorems and witnesses) -/

/-- A 40-hex-digit commit id. -/
def sampleShaA : String := String.mk (List.replicate 40 'a')

/-- A second, distinct 40-hex-digit commit id. -/
def sampleShaB : String := String.mk (List.replicate 40 'b')

/-- A third 40-hex-digit commit id. -/
def sampleShaC : String := String.mk (List.replicate 40 'c')

/-- A fourth 40-hex-digit commit id. -/
def sampleShaD : String := String.mk (List.replicate 40 'd')

/-- Repository state for the `undo_sync` claim: `feature-a` has moved to
`sampleShaB` after a sync whose backup recorded `sampleShaA`. -/
def undoGitC1 : Git :=
  { branches := [("feature-a", sampleShaB)], remoteBranches := [],
    current := some "feature-a", rebasing := false,
    objects := [sampleShaA, sampleShaB], originUrl := none, statuses := [] }

/-- Store state for the `undo_sync` claim: no sync in progress, one backup. -/
def undoStoreC1 : Store :=
  { initialized := true, stack := ⟨[]⟩, sync := none,
    backups := [("b1", [("feature-a", sampleShaA)])] }

/-- Repository state for the `abort_sync` counterexample: mid-rebase, with
`feature-a` moved to `sampleShaB`. -/
def abortGitC2 : Git :=
  { branches := [("feature-a", sampleShaB)], remoteBranches := [],
    current := some "feature-a", rebasing := true,
    objects := [sampleShaA, sampleShaB], originUrl := none, statuses := [] }

/-- Store state for the `abort_sync` counterexample: sync in progress
referencing backup `b1`. -/
def abortStoreC2 : Store :=
  { initialized := true, stack := ⟨[⟨"feature-a", none, none⟩]⟩,
    sync := some ⟨"b1", [], "feature-a", []⟩,
    backups := [("b1", [("feature-a", sampleShaA)])] }

end Rung

namespace Rung

/-- Repository for the plan-characterization witness: `main` moved to
`sampleShaB` while `feature-a` still sits at `sampleShaA`. -/
def planGitC4 : Git :=
  { branches := [("main", sampleShaB), ("feature-a", sampleShaA)], remoteBranches := [],
    current := some "main", rebasing := false,
    objects := [sampleShaA, sampleShaB, sampleShaC], originUrl := none, statuses := [] }

/-- Stack for the plan-characterization witness. -/
def stackC4 : Stack := ⟨[⟨"feature-a", some "main", none⟩]⟩

/-- Branch tips of `planGitC4` as a function. -/
def tipsC4 : String → String := fun n => if n = "main" then sampleShaB else sampleShaA

/-- Merge-base oracle for the witness: the common ancestor is
`sampleShaC`, distinct from `main`'s tip. -/
def mbC4 : String → String → String := fun _ _ => sampleShaC

/-- Store for the plan-characterization witness. -/
def storeC4 : Store := { initialized := true, stack := stackC4, sync := none, backups := [] }

/-- Rebase oracle that always succeeds, moving the branch to `sampleShaD`. -/
def oracleC4 : RebaseOracle := fun _ _ => .success sampleShaD

end Rung

namespace Rung

/-- Rebase oracle that always conflicts on `f.txt`. -/
def oracleConfl : RebaseOracle := fun _ _ => .conflict ["f.txt"]

/-- Repository for the `continue_sync` conflict witness. -/
def contGitC3 : Git :=
  { branches := [("main", sampleShaB), ("feature-c", sampleShaA)], remoteBranches := [],
    current := some "feature-a", rebasing := true,
    objects := [sampleShaA, sampleShaB], originUrl := none, statuses := [] }

/-- Store for the `continue_sync` conflict witness: a paused sync with two
remaining branches. -/
def contStoreC3 : Store :=
  { initialized := true, stack := ⟨[⟨"feature-c", some "main", none⟩]⟩,
    sync := some ⟨"b1", [], "feature-a", ["feature-b", "feature-c"]⟩,
    backups := [("b1", [("feature-a", sampleShaA)])] }

end Rung

namespace Rung

/-- Repository for the merge-cleanup witness: `feature-b` (merged branch)
with child `feature-c`; origin `main` has the squash-merge commit. -/
def mergeGitC6 : Git :=
  { branches := [("main", sampleShaB), ("feature-b", sampleShaA), ("feature-c", sampleShaC)],
    remoteBranches := [("main", sampleShaD)], current := some "feature-b", rebasing := false,
    objects := [sampleShaA, sampleShaB, sampleShaC, sampleShaD],
    originUrl := some "git@github.com:octo/hello.git", statuses := [] }

/-- Stack for the merge-cleanup witness. -/
def mergeStackC6 : Stack :=
  ⟨[⟨"feature-b", none, some 11⟩, ⟨"feature-c", some "feature-b", some 12⟩]⟩

/-- Store for the merge-cleanup witness. -/
def mergeStoreC6 : Store :=
  { initialized := true, stack := mergeStackC6, sync := none, backups := [] }

/-- Forge oracle for the merge-cleanup witness: the merge and fetch
succeed but the descendant rebase fails, exercising the
persist-despite-failure branch. -/
def mergeOracleC6 : ForgeOracle :=
  { mergeOk := true, fetchOk := true, updatePrOk := fun _ => true,
    rebaseFrom := fun _ _ _ => .failure "conflict", pushOk := fun _ => true,
    deleteRefOk := true }

end Rung

namespace Rung

/-! # Theorems

## Association-list lemmas -/

theorem alookup_aupdate_self (l : List (String × String)) (k v : String) :
    alookup (aupdate l k v) k = some v := by
  induction l with
  | nil => simp [alookup, aupdate]
  | cons hd tl ih =>
    obtain ⟨k', v'⟩ := hd
    by_cases h : k' = k <;> simp [alookup, aupdate, h, ih]

theorem alookup_aupdate_other (l : List (String × String)) (k k' v : String) (h : k ≠ k') :
    alookup (aupdate l k v) k' = alookup l k' := by
  induction l with
  | nil => simp [alookup, aupdate, h]
  | cons hd tl ih =>
    obtain ⟨k0, v0⟩ := hd
    by_cases h0 : k0 = k
    · subst h0
      simp [alookup, aupdate, h]
    · simp only [aupdate, if_neg h0, alookup]
      by_cases h1 : k0 = k' <;> simp [h1, ih]

theorem alookup_isSome_aupdate (l : List (String × String)) (k v q : String)
    (h : (alookup l q).isSome = true) : (alookup (aupdate l k v) q).isSome = true := by
  by_cases hq : k = q
  · subst hq; simp [alookup_aupdate_self]
  · rw [alookup_aupdate_other l k q v hq]; exact h

theorem branchExists_setTip (g : Git) (n c q : String) (h : g.branchExists q = true) :
    (g.setTip n c).branchExists q = true := by
  unfold Git.branchExists Git.setTip at *
  exact alookup_isSome_aupdate _ _ _ _ h

/-! ## Character lemmas (for `slugify`) -/

theorem char_toNat_ofNat {n : Nat} (h : Nat.isValidChar n) : (Char.ofNat n).toNat = n := by
  simp [Char.ofNat, h, Char.ofNatAux, Char.toNat, UInt32.toNat, BitVec.toNat_ofNatLt]

theorem toLower_toNat (c : Char) (h : 65 ≤ c.toNat ∧ c.toNat ≤ 90) :
    (Char.toLower c).toNat = c.toNat + 32 := by
  have hv : Nat.isValidChar (c.toNat + 32) := by left; omega
  simp only [Char.toLower, h, and_self, if_true]
  exact char_toNat_ofNat hv

theorem toLower_eq_self (c : Char) (h : ¬ (65 ≤ c.toNat ∧ c.toNat ≤ 90)) :
    Char.toLower c = c := by
  simp only [Char.toLower, if_neg h]

theorem toLower_idem (c : Char) : Char.toLower (Char.toLower c) = Char.toLower c := by
  by_cases h : 65 ≤ c.toNat ∧ c.toNat ≤ 90
  · have h1 : (Char.toLower c).toNat = c.toNat + 32 := toLower_toNat c h
    exact toLower_eq_self _ (by omega)
  · rw [toLower_eq_self c h, toLower_eq_self c h]

/-! ## Slugify canonical-form lemmas

`lowerStr` and `isAlnum` model Rust's `str::to_lowercase` and
`char::is_alphanumeric` (standard-library Unicode tables, external to
this repository).  The lemmas assume only documented Unicode properties,
phrased through an arbitrary class `lowFixed` of characters fixed under
lowercasing: every character `to_lowercase` emits is itself fixed under
lowercasing; a string all of whose characters are so fixed or `'-'` is
fixed by `to_lowercase`; and `'\n'` is not alphanumeric. -/

theorem slugChar_fixed {isAlnum : Char → Bool} {c : Char} (h : isAlnum c = true) :
    slugChar isAlnum c = c := by
  simp [slugChar, h]

theorem slugChar_hyphen (isAlnum : Char → Bool) : slugChar isAlnum '-' = '-' := by
  unfold slugChar
  split <;> rfl

theorem slugChar_good {isAlnum : Char → Bool} {c d : Char} (h : slugChar isAlnum c = d)
    (hd : d ≠ '-') : isAlnum d = true ∧ d = c := by
  by_cases hb : isAlnum c = true
  · rw [slugChar_fixed hb] at h
    exact ⟨h ▸ hb, h.symm⟩
  · exfalso
    apply hd
    rw [← h]
    unfold slugChar
    rw [if_neg hb]

theorem mem_splitOn_subset {x : Char} :
    ∀ {l : List Char} {p : List Char}, p ∈ l.splitOn x → ∀ {c : Char}, c ∈ p → c ∈ l ∧ c ≠ x := by
  intro l
  induction l with
  | nil =>
    intro p hp c hc
    simp [List.splitOn_nil] at hp
    subst hp; simp at hc
  | cons a l ih =>
    intro p hp c hc
    rw [List.splitOn, List.splitOnP_cons] at hp
    by_cases hax : a = x
    · simp only [hax, beq_self_eq_true, if_pos] at hp
      rcases List.mem_cons.mp hp with h | h
      · subst h; simp at hc
      · have := ih (by rw [List.splitOn] at *; exact h) hc
        exact ⟨List.mem_cons_of_mem _ this.1, this.2⟩
    · have hbeq : (a == x) = false := beq_eq_false_iff_ne.mpr hax
      simp only [hbeq, Bool.false_eq_true, if_false] at hp
      obtain ⟨h0, t0, hsplit⟩ : ∃ h0 t0, l.splitOn x = h0 :: t0 := by
        rcases hl : l.splitOn x with _ | ⟨h0, t0⟩
        · exact absurd hl (List.splitOnP_ne_nil _ l)
        · exact ⟨h0, t0, rfl⟩
      rw [List.splitOn] at hsplit
      rw [hsplit] at hp
      simp only [List.modifyHead] at hp
      rcases List.mem_cons.mp hp with h | h
      · subst h
        rcases List.mem_cons.mp hc with h | h
        · subst h; exact ⟨List.mem_cons_self _ _, hax⟩
        · have := ih (by rw [List.splitOn, hsplit]; exact List.mem_cons_self _ _) h
          exact ⟨List.mem_cons_of_mem _ this.1, this.2⟩
      · have := ih (by rw [List.splitOn, hsplit]; exact List.mem_cons_of_mem _ h) hc
        exact ⟨List.mem_cons_of_mem _ this.1, this.2⟩

theorem slugCore_pieces_good (lowerStr : List Char → List Char) (isAlnum : Char → Bool)
    (lowFixed : Char → Prop) (h1 : ∀ s : List Char, ∀ c ∈ lowerStr s, lowFixed c)
    (cs : List Char) :
    ∀ p ∈ (((lowerStr cs).map (slugChar isAlnum)).splitOn '-').filter (fun p => ¬ p.isEmpty),
      GoodPiece isAlnum lowFixed p := by
  intro p hp
  rw [List.mem_filter] at hp
  obtain ⟨hmem, hne⟩ := hp
  constructor
  · simpa [List.isEmpty_iff] using hne
  · intro c hc
    obtain ⟨hin, hneq⟩ := mem_splitOn_subset hmem hc
    obtain ⟨a, ha, hac⟩ := List.mem_map.mp hin
    obtain ⟨halnum, hca⟩ := slugChar_good hac hneq
    refine ⟨halnum, ?_, hneq⟩
    rw [hca]
    exact h1 cs a ha

theorem intercalate1_nil (x : Char) : List.intercalate [x] ([] : List (List Char)) = [] := rfl

theorem intercalate1_single (x : Char) (p : List Char) : List.intercalate [x] [p] = p := by
  simp [List.intercalate]

theorem intercalate1_cons2 (x : Char) (p q : List Char) (ps : List (List Char)) :
    List.intercalate [x] (p :: q :: ps) = p ++ x :: List.intercalate [x] (q :: ps) := by
  simp [List.intercalate, List.intersperse_cons_cons]

theorem map_intercalate1 (f : Char → Char) (x : Char) (ps : List (List Char)) :
    (List.intercalate [x] ps).map f = List.intercalate [f x] (ps.map (List.map f)) := by
  induction ps with
  | nil => simp [intercalate1_nil]
  | cons p ps ih =>
    cases ps with
    | nil => simp [intercalate1_single]
    | cons q ps' =>
      rw [intercalate1_cons2, List.map_cons, List.map_cons]
      rw [intercalate1_cons2]
      rw [List.map_append, List.map_cons, ih]
      simp

theorem good_map_self {isAlnum : Char → Bool} {lowFixed : Char → Prop}
    {ps : List (List Char)} (hgood : ∀ p ∈ ps, GoodPiece isAlnum lowFixed p) :
    ps.map (List.map (slugChar isAlnum)) = ps := by
  have : ∀ p ∈ ps, p.map (slugChar isAlnum) = p := by
    intro p hp
    have hg := hgood p hp
    have : ∀ c ∈ p, slugChar isAlnum c = c := fun c hc =>
      slugChar_fixed (hg.2 c hc).1
    calc p.map (slugChar isAlnum) = p.map id := List.map_congr_left this
    _ = p := List.map_id p
  calc ps.map (List.map (slugChar isAlnum)) = ps.map id := List.map_congr_left this
  _ = ps := List.map_id ps

theorem good_no_hyphen {isAlnum : Char → Bool} {lowFixed : Char → Prop}
    {ps : List (List Char)} (hgood : ∀ p ∈ ps, GoodPiece isAlnum lowFixed p) :
    ∀ p ∈ ps, '-' ∉ p := by
  intro p hp hmem
  exact ((hgood p hp).2 '-' hmem).2.2 rfl

theorem mem_intercalate1 {c x : Char} : ∀ {ps : List (List Char)},
    c ∈ List.intercalate [x] ps → c = x ∨ ∃ p ∈ ps, c ∈ p := by
  intro ps
  induction ps with
  | nil => intro h; rw [intercalate1_nil] at h; simp at h
  | cons p ps ih =>
    intro h
    cases ps with
    | nil =>
      rw [intercalate1_single] at h
      exact Or.inr ⟨p, List.mem_cons_self _ _, h⟩
    | cons q ps' =>
      rw [intercalate1_cons2] at h
      rcases List.mem_append.mp h with h | h
      · exact Or.inr ⟨p, List.mem_cons_self _ _, h⟩
      · rcases List.mem_cons.mp h with h | h
        · exact Or.inl h
        · rcases ih h with h | ⟨r, hr, hcr⟩
          · exact Or.inl h
          · exact Or.inr ⟨r, List.mem_cons_of_mem _ hr, hcr⟩

theorem good_lower_fix {lowerStr : List Char → List Char} {isAlnum : Char → Bool}
    {lowFixed : Char → Prop}
    (h2 : ∀ s : List Char, (∀ c ∈ s, lowFixed c ∨ c = '-') → lowerStr s = s)
    {ps : List (List Char)} (hgood : ∀ p ∈ ps, GoodPiece isAlnum lowFixed p) :
    lowerStr (List.intercalate ['-'] ps) = List.intercalate ['-'] ps := by
  apply h2
  intro c hc
  rcases mem_intercalate1 hc with h | ⟨p, hp, hcp⟩
  · exact Or.inr h
  · exact Or.inl ((hgood p hp).2 c hcp).2.1

theorem slugCore_fix {lowerStr : List Char → List Char} {isAlnum : Char → Bool}
    {lowFixed : Char → Prop}
    (h2 : ∀ s : List Char, (∀ c ∈ s, lowFixed c ∨ c = '-') → lowerStr s = s)
    {ps : List (List Char)} (hgood : ∀ p ∈ ps, GoodPiece isAlnum lowFixed p) :
    slugCore lowerStr isAlnum (List.intercalate ['-'] ps) = List.intercalate ['-'] ps := by
  unfold slugCore
  rw [good_lower_fix h2 hgood]
  cases hps : ps with
  | nil => rfl
  | cons p0 ps' =>
    subst hps
    rw [map_intercalate1, slugChar_hyphen, good_map_self hgood]
    rw [List.splitOn_intercalate _ '-' (good_no_hyphen hgood) (by simp)]
    have hfilter : (p0 :: ps').filter (fun p => ¬ p.isEmpty) = p0 :: ps' := by
      rw [List.filter_eq_self]
      intro p hp
      simp [List.isEmpty_iff]
      exact (hgood p hp).1
    rw [hfilter]

theorem good_no_newline {isAlnum : Char → Bool} {lowFixed : Char → Prop}
    (h3 : isAlnum '\n' = false) {ps : List (List Char)}
    (hgood : ∀ p ∈ ps, GoodPiece isAlnum lowFixed p) :
    ∀ c ∈ List.intercalate ['-'] ps, c ≠ '\n' := by
  intro c hc
  rcases mem_intercalate1 hc with h | ⟨p, hp, hcp⟩
  · subst h; decide
  · intro hcn
    subst hcn
    have := ((hgood p hp).2 _ hcp).1
    rw [h3] at this
    exact absurd this (by decide)

theorem truncateSlug_of_le {s : List Char} (h : s.length ≤ MAX_BRANCH_NAME_LENGTH) :
    truncateSlug s = s := by
  simp [truncateSlug, h]

theorem truncateSlug_of_gt_some {s : List Char} {pos : Nat}
    (h : ¬ s.length ≤ MAX_BRANCH_NAME_LENGTH) (hl : lastHyphenPos s = some pos) :
    truncateSlug s = s.take pos := by
  simp [truncateSlug, h, hl]

theorem truncateSlug_of_gt_none {s : List Char}
    (h : ¬ s.length ≤ MAX_BRANCH_NAME_LENGTH) (hl : lastHyphenPos s = none) :
    truncateSlug s = s.take MAX_BRANCH_NAME_LENGTH := by
  simp [truncateSlug, h, hl]

theorem slugify_fix {lowerStr : List Char → List Char} {isAlnum : Char → Bool}
    {lowFixed : Char → Prop}
    (h2 : ∀ s : List Char, (∀ c ∈ s, lowFixed c ∨ c = '-') → lowerStr s = s)
    (h3 : isAlnum '\n' = false)
    {ps : List (List Char)} (hgood : ∀ p ∈ ps, GoodPiece isAlnum lowFixed p)
    (hlen : (List.intercalate ['-'] ps).length ≤ MAX_BRANCH_NAME_LENGTH) :
    slugify lowerStr isAlnum (List.intercalate ['-'] ps) = List.intercalate ['-'] ps := by
  unfold slugify
  have hfl : (List.intercalate ['-'] ps).takeWhile (fun c => c ≠ '\n')
      = List.intercalate ['-'] ps := by
    rw [List.takeWhile_eq_self_iff]
    intro c hc
    simpa using good_no_newline h3 hgood c hc
  rw [hfl, slugCore_fix h2 hgood]
  exact truncateSlug_of_le hlen

theorem mem_of_getElem?' {l : List Char} {i : Nat} {a : Char} (h : l[i]? = some a) : a ∈ l := by
  obtain ⟨hlt, he⟩ := List.getElem?_eq_some.mp h
  exact he ▸ List.getElem_mem hlt

theorem getElem?_append_left' {l₁ l₂ : List Char} {n : Nat} (h : n < l₁.length) :
    (l₁ ++ l₂)[n]? = l₁[n]? := by
  rw [List.getElem?_append]
  simp [h]

theorem take_intercalate_good {isAlnum : Char → Bool} {lowFixed : Char → Prop} {x : Char} :
    ∀ {ps : List (List Char)},
    (∀ p ∈ ps, GoodPiece isAlnum lowFixed p) → (∀ p ∈ ps, x ∉ p) → ∀ {i : Nat},
    (List.intercalate [x] ps)[i]? = some x →
    ∃ qs, qs ≠ [] ∧ (∀ q ∈ qs, GoodPiece isAlnum lowFixed q) ∧
      (List.intercalate [x] ps).take i = List.intercalate [x] qs := by
  intro ps
  induction ps with
  | nil =>
    intro _ _ i h
    rw [intercalate1_nil] at h
    simp at h
  | cons p ps ih =>
    intro hgood hx i h
    cases ps with
    | nil =>
      rw [intercalate1_single] at h ⊢
      exact absurd (mem_of_getElem?' h) (hx p (List.mem_cons_self _ _))
    | cons q ps' =>
      rw [intercalate1_cons2] at h ⊢
      rcases Nat.lt_trichotomy i p.length with hlt | heq | hgt
      · rw [getElem?_append_left' hlt] at h
        exact absurd (mem_of_getElem?' h) (hx p (List.mem_cons_self _ _))
      · refine ⟨[p], by simp, ?_, ?_⟩
        · intro r hr
          rw [List.mem_singleton] at hr
          exact hr ▸ hgood p (List.mem_cons_self _ _)
        · rw [heq, List.take_left, intercalate1_single]
      · rw [List.getElem?_append_right (Nat.le_of_lt hgt)] at h
        obtain ⟨j, hj⟩ : ∃ j, i - p.length = j + 1 := ⟨i - p.length - 1, by omega⟩
        rw [hj] at h
        simp only [List.getElem?_cons_succ] at h
        obtain ⟨qs', hqs'ne, hqs'good, hqs'take⟩ :=
          ih (fun r hr => hgood r (List.mem_cons_of_mem _ hr))
             (fun r hr => hx r (List.mem_cons_of_mem _ hr)) h
        refine ⟨p :: qs', by simp, ?_, ?_⟩
        · intro r hr
          rcases List.mem_cons.mp hr with h' | h'
          · exact h' ▸ hgood p (List.mem_cons_self _ _)
          · exact hqs'good r h'
        · cases qs' with
          | nil => exact absurd rfl hqs'ne
          | cons q0 qs'' =>
            rw [intercalate1_cons2]
            rw [List.take_append_eq_append_take]
            rw [List.take_of_length_le (by omega)]
            rw [hj, List.take_succ_cons, hqs'take]

theorem lastHyphenPos_some {cs : List Char} {pos : Nat} (h : lastHyphenPos cs = some pos) :
    cs[pos]? = some '-' ∧ pos < MAX_BRANCH_NAME_LENGTH := by
  unfold lastHyphenPos at h
  have hmem := List.mem_of_getLast?_eq_some h
  obtain ⟨⟨i, c⟩, hpr, hfst⟩ := List.mem_map.mp hmem
  rw [List.mem_filter] at hpr
  obtain ⟨henum, hsnd⟩ := hpr
  simp only [decide_eq_true_eq] at hsnd
  subst hsnd
  simp only at hfst
  subst hfst
  have hget : (cs.take MAX_BRANCH_NAME_LENGTH)[i]? = some '-' :=
    List.mk_mem_enum_iff_getElem?.mp henum
  have hlt : i < (cs.take MAX_BRANCH_NAME_LENGTH).length :=
    (List.getElem?_eq_some.mp hget).1
  rw [List.length_take] at hlt
  have hi50 : i < MAX_BRANCH_NAME_LENGTH := lt_of_lt_of_le hlt (Nat.min_le_left _ _)
  rw [List.getElem?_take_of_lt hi50] at hget
  exact ⟨hget, hi50⟩

theorem lastHyphenPos_none {cs : List Char} (h : lastHyphenPos cs = none) :
    '-' ∉ cs.take MAX_BRANCH_NAME_LENGTH := by
  intro hmem
  obtain ⟨i, hi⟩ := List.mem_iff_getElem?.mp hmem
  have henum : (i, '-') ∈ (cs.take MAX_BRANCH_NAME_LENGTH).enum :=
    List.mk_mem_enum_iff_getElem?.mpr hi
  have hfil : (i, '-') ∈ (cs.take MAX_BRANCH_NAME_LENGTH).enum.filter (fun p => p.2 = '-') := by
    rw [List.mem_filter]
    exact ⟨henum, by simp⟩
  have : i ∈ ((cs.take MAX_BRANCH_NAME_LENGTH).enum.filter (fun p => p.2 = '-')).map
      (fun p => p.1) := List.mem_map.mpr ⟨(i, '-'), hfil, rfl⟩
  unfold lastHyphenPos at h
  rw [List.getLast?_eq_none_iff] at h
  rw [h] at this
  simp at this

theorem slugify_idempotent (lowerStr : List Char → List Char) (isAlnum : Char → Bool)
    (lowFixed : Char → Prop)
    (h1 : ∀ s : List Char, ∀ c ∈ lowerStr s, lowFixed c)
    (h2 : ∀ s : List Char, (∀ c ∈ s, lowFixed c ∨ c = '-') → lowerStr s = s)
    (h3 : isAlnum '\n' = false)
    (t : List Char) :
    slugify lowerStr isAlnum (slugify lowerStr isAlnum t) = slugify lowerStr isAlnum t := by
  have hgood : ∀ p ∈ (((lowerStr (t.takeWhile (fun c => c ≠ '\n'))).map
      (slugChar isAlnum)).splitOn '-').filter (fun p => ¬ p.isEmpty),
      GoodPiece isAlnum lowFixed p := slugCore_pieces_good lowerStr isAlnum lowFixed h1 _
  set ps := (((lowerStr (t.takeWhile (fun c => c ≠ '\n'))).map
      (slugChar isAlnum)).splitOn '-').filter (fun p => ¬ p.isEmpty) with hps
  have hslug : slugCore lowerStr isAlnum (t.takeWhile (fun c => c ≠ '\n'))
      = List.intercalate ['-'] ps := rfl
  by_cases hlen : (List.intercalate ['-'] ps).length ≤ MAX_BRANCH_NAME_LENGTH
  · have hfirst : slugify lowerStr isAlnum t = List.intercalate ['-'] ps := by
      unfold slugify
      rw [hslug]
      exact truncateSlug_of_le hlen
    rw [hfirst]
    exact slugify_fix h2 h3 hgood hlen
  · cases hl : lastHyphenPos (List.intercalate ['-'] ps) with
    | some pos =>
      have hfirst : slugify lowerStr isAlnum t = (List.intercalate ['-'] ps).take pos := by
        unfold slugify
        rw [hslug]
        exact truncateSlug_of_gt_some hlen hl
      obtain ⟨hget, _⟩ := lastHyphenPos_some hl
      obtain ⟨qs, hqsne, hqsgood, hqstake⟩ :=
        take_intercalate_good hgood (good_no_hyphen hgood) hget
      rw [hfirst, hqstake]
      apply slugify_fix h2 h3 hqsgood
      rw [← hqstake]
      calc ((List.intercalate ['-'] ps).take pos).length ≤ pos := by
            rw [List.length_take]; exact Nat.min_le_left _ _
      _ ≤ MAX_BRANCH_NAME_LENGTH := le_of_lt (lastHyphenPos_some hl).2
    | none =>
      have hfirst : slugify lowerStr isAlnum t
          = (List.intercalate ['-'] ps).take MAX_BRANCH_NAME_LENGTH := by
        unfold slugify
        rw [hslug]
        exact truncateSlug_of_gt_none hlen hl
      have hnh := lastHyphenPos_none hl
      have hlen50 : ((List.intercalate ['-'] ps).take MAX_BRANCH_NAME_LENGTH).length
          = MAX_BRANCH_NAME_LENGTH := by
        rw [List.length_take]
        omega
      have htgood : GoodPiece isAlnum lowFixed
          ((List.intercalate ['-'] ps).take MAX_BRANCH_NAME_LENGTH) := by
        constructor
        · intro hnil
          rw [hnil] at hlen50
          simp [MAX_BRANCH_NAME_LENGTH] at hlen50
        · intro c hc
          have hcs : c ∈ List.intercalate ['-'] ps := List.take_subset _ _ hc
          have hcneq : c ≠ '-' := by
            intro hceq; subst hceq; exact hnh hc
          rcases mem_intercalate1 hcs with h' | ⟨p, hp, hcp⟩
          · exact absurd h' hcneq
          · exact (hgood p hp).2 c hcp
      rw [hfirst]
      have hsingle : (List.intercalate ['-'] ps).take MAX_BRANCH_NAME_LENGTH
          = List.intercalate ['-'] [(List.intercalate ['-'] ps).take MAX_BRANCH_NAME_LENGTH] :=
        (intercalate1_single _ _).symm
      rw [hsingle]
      apply slugify_fix h2 h3
      · intro q hq
        rw [List.mem_singleton] at hq
        exact hq ▸ htgood
      · rw [← hsingle, hlen50]

/-- C9: `slugify` is idempotent on every input whose slug passes
BranchName validation (the proof in fact shows idempotence for every
input).  The statement quantifies over the two Unicode table functions
`slugify` consumes — the lowercase map `lowerStr` and the alphanumeric
predicate `isAlnum` — constrained only by documented properties of Rust's
`str::to_lowercase` and `char::is_alphanumeric`: every character the
lowercase map emits lies in a class `lowFixed` of characters stable under
lowercasing, any string of such characters and hyphens is fixed by the
lowercase map, and the newline is not alphanumeric.  Unicode satisfies
these with `lowFixed c` taken as "`c` is fixed by `to_lowercase` in any
context": full lowercase mappings — including the multi-character ones
and the context-dependent final-sigma rule — emit only such characters,
so the idempotence of the source function is an instance. -/
theorem slugify_idem_on_valid (lowerStr : List Char → List Char) (isAlnum : Char → Bool)
    (lowFixed : Char → Prop)
    (h1 : ∀ s : List Char, ∀ c ∈ lowerStr s, lowFixed c)
    (h2 : ∀ s : List Char, (∀ c ∈ s, lowFixed c ∨ c = '-') → lowerStr s = s)
    (h3 : isAlnum '\n' = false)
    (x : List Char)
    (_hvalid : validateBranchName (slugify lowerStr isAlnum x) = .ok ()) :
    slugify lowerStr isAlnum (slugify lowerStr isAlnum x) = slugify lowerStr isAlnum x :=
  slugify_idempotent lowerStr isAlnum lowFixed h1 h2 h3 x

theorem asciiLowerStr_emits_fixed :
    ∀ s : List Char, ∀ c ∈ asciiLowerStr s, Char.toLower c = c := by
  intro s c hc
  obtain ⟨a, _, ha⟩ := List.mem_map.mp hc
  rw [← ha]
  exact toLower_idem a

theorem asciiLowerStr_of_fixed :
    ∀ s : List Char, (∀ c ∈ s, Char.toLower c = c ∨ c = '-') → asciiLowerStr s = s := by
  intro s h
  unfold asciiLowerStr
  have hfix : ∀ c ∈ s, Char.toLower c = c := by
    intro c hc
    rcases h c hc with h' | h'
    · exact h'
    · rw [h']; decide
  calc s.map Char.toLower = s.map id := List.map_congr_left hfix
  _ = s := List.map_id s

/-- Witness for C9 at the ASCII instantiation of the Unicode table
functions and the concrete input `"feat: add authentication"`. -/
theorem slugify_idem_on_valid_witness :
    Char.isAlphanum '\n' = false ∧
    validateBranchName (slugify asciiLowerStr Char.isAlphanum
        "feat: add authentication".data) = .ok () ∧
    slugify asciiLowerStr Char.isAlphanum
        (slugify asciiLowerStr Char.isAlphanum "feat: add authentication".data)
      = slugify asciiLowerStr Char.isAlphanum "feat: add authentication".data :=
  ⟨by decide, rfl,
    slugify_idem_on_valid asciiLowerStr Char.isAlphanum (fun c => Char.toLower c = c)
      asciiLowerStr_emits_fixed asciiLowerStr_of_fixed (by decide) _ rfl⟩

end Rung

namespace Rung

/-! ## Remote-URL parsing lemmas (C8) -/

theorem dropPref_append (p l : List Char) : dropPref p (p ++ l) = some l := by
  induction p with
  | nil => rfl
  | cons c cs ih => simp [dropPref, ih]

theorem dropPref_sound : ∀ {p l r : List Char}, dropPref p l = some r → l = p ++ r := by
  intro p
  induction p with
  | nil =>
    intro l r h
    simp [dropPref] at h
    simp [h]
  | cons c cs ih =>
    intro l r h
    cases l with
    | nil => simp [dropPref] at h
    | cons a l' =>
      simp only [dropPref] at h
      by_cases hac : a = c
      · subst hac
        simp only [if_pos rfl] at h
        rw [List.cons_append, ih h]
      · rw [if_neg hac] at h
        simp at h

theorem dropSuf_append (s l : List Char) : dropSuf s (l ++ s) = some l := by
  unfold dropSuf
  rw [List.reverse_append, dropPref_append]
  simp

theorem dropSuf_none_of_not_suffix {s l : List Char} (h : ¬ s <:+ l) :
    dropSuf s l = none := by
  cases hd : dropSuf s l with
  | none => rfl
  | some t =>
    exfalso
    apply h
    unfold dropSuf at hd
    cases hp : dropPref s.reverse l.reverse with
    | none => rw [hp] at hd; simp at hd
    | some u =>
      rw [hp] at hd
      simp only [Option.map] at hd
      have hrev := dropPref_sound hp
      refine ⟨u.reverse, ?_⟩
      have : l = u.reverse ++ s := by
        have := congrArg List.reverse hrev
        simpa using this
      rw [this]

theorem splitOnce_append {o : List Char} (ho : '/' ∉ o) (r : List Char) :
    splitOnce (o ++ '/' :: r) '/' = some (o, r) := by
  induction o with
  | nil => simp [splitOnce]
  | cons c o' ih =>
    have hc : c ≠ '/' := fun hc => ho (hc ▸ List.mem_cons_self _ _)
    have ho' : '/' ∉ o' := fun hm => ho (List.mem_cons_of_mem _ hm)
    simp only [List.cons_append, splitOnce, if_neg hc, List.append_eq]
    rw [ih ho']
    rfl

theorem parseOwnerRepo_plain {o r : List Char} (ho : '/' ∉ o)
    (hs : ¬ (".git".data <:+ (o ++ '/' :: r))) :
    parseOwnerRepo (o ++ '/' :: r) = some (o, r) := by
  unfold parseOwnerRepo
  rw [dropSuf_none_of_not_suffix hs]
  simp only [Option.getD]
  exact splitOnce_append ho r

theorem parseOwnerRepo_git {o r : List Char} (ho : '/' ∉ o) :
    parseOwnerRepo ((o ++ '/' :: r) ++ ".git".data) = some (o, r) := by
  unfold parseOwnerRepo
  rw [dropSuf_append]
  simp only [Option.getD]
  exact splitOnce_append ho r

theorem parseGithubRemote_of_ssh {url rest : List Char} (h : dropPref sshPre url = some rest) :
    parseGithubRemote url =
      match parseOwnerRepo rest with
      | some pr => .ok pr
      | none => .error (.invalidRemoteUrl (String.mk url)) := by
  unfold parseGithubRemote
  rw [h]

theorem parseGithubRemote_of_http {url rest : List Char} (h1 : dropPref sshPre url = none)
    (h2 : (dropPref httpsPre url).orElse (fun _ => dropPref httpPre url) = some rest) :
    parseGithubRemote url =
      match parseOwnerRepo rest with
      | some pr => .ok pr
      | none => .error (.invalidRemoteUrl (String.mk url)) := by
  unfold parseGithubRemote
  rw [h1, h2]

theorem dropPref_ssh_of_https (l : List Char) : dropPref sshPre (httpsPre ++ l) = none := rfl

theorem dropPref_ssh_of_http (l : List Char) : dropPref sshPre (httpPre ++ l) = none := rfl

theorem dropPref_https_of_http (l : List Char) : dropPref httpsPre (httpPre ++ l) = none := rfl

theorem parse_ssh_plain {o r : List Char} (ho : '/' ∉ o)
    (hs : ¬ (".git".data <:+ (o ++ '/' :: r))) :
    parseGithubRemote (sshPre ++ (o ++ '/' :: r)) = .ok (o, r) := by
  rw [parseGithubRemote_of_ssh (dropPref_append sshPre _), parseOwnerRepo_plain ho hs]

theorem parse_ssh_git {o r : List Char} (ho : '/' ∉ o) :
    parseGithubRemote (sshPre ++ ((o ++ '/' :: r) ++ ".git".data)) = .ok (o, r) := by
  rw [parseGithubRemote_of_ssh (dropPref_append sshPre _), parseOwnerRepo_git ho]

theorem parse_https_plain {o r : List Char} (ho : '/' ∉ o)
    (hs : ¬ (".git".data <:+ (o ++ '/' :: r))) :
    parseGithubRemote (httpsPre ++ (o ++ '/' :: r)) = .ok (o, r) := by
  have h2 : (dropPref httpsPre (httpsPre ++ (o ++ '/' :: r))).orElse
      (fun _ => dropPref httpPre (httpsPre ++ (o ++ '/' :: r))) = some (o ++ '/' :: r) := by
    rw [dropPref_append]
    rfl
  rw [parseGithubRemote_of_http (dropPref_ssh_of_https _) h2, parseOwnerRepo_plain ho hs]

theorem parse_https_git {o r : List Char} (ho : '/' ∉ o) :
    parseGithubRemote (httpsPre ++ ((o ++ '/' :: r) ++ ".git".data)) = .ok (o, r) := by
  have h2 : (dropPref httpsPre (httpsPre ++ ((o ++ '/' :: r) ++ ".git".data))).orElse
      (fun _ => dropPref httpPre (httpsPre ++ ((o ++ '/' :: r) ++ ".git".data)))
        = some ((o ++ '/' :: r) ++ ".git".data) := by
    rw [dropPref_append]
    rfl
  rw [parseGithubRemote_of_http (dropPref_ssh_of_https _) h2, parseOwnerRepo_git ho]

theorem parse_http_plain {o r : List Char} (ho : '/' ∉ o)
    (hs : ¬ (".git".data <:+ (o ++ '/' :: r))) :
    parseGithubRemote (httpPre ++ (o ++ '/' :: r)) = .ok (o, r) := by
  have h2 : (dropPref httpsPre (httpPre ++ (o ++ '/' :: r))).orElse
      (fun _ => dropPref httpPre (httpPre ++ (o ++ '/' :: r))) = some (o ++ '/' :: r) := by
    rw [dropPref_https_of_http, dropPref_append]
    rfl
  rw [parseGithubRemote_of_http (dropPref_ssh_of_http _) h2, parseOwnerRepo_plain ho hs]

theorem parse_http_git {o r : List Char} (ho : '/' ∉ o) :
    parseGithubRemote (httpPre ++ ((o ++ '/' :: r) ++ ".git".data)) = .ok (o, r) := by
  have h2 : (dropPref httpsPre (httpPre ++ ((o ++ '/' :: r) ++ ".git".data))).orElse
      (fun _ => dropPref httpPre (httpPre ++ ((o ++ '/' :: r) ++ ".git".data)))
        = some ((o ++ '/' :: r) ++ ".git".data) := by
    rw [dropPref_https_of_http, dropPref_append]
    rfl
  rw [parseGithubRemote_of_http (dropPref_ssh_of_http _) h2, parseOwnerRepo_git ho]

/-- C8 counterexample: the claim says every input that is not of the
canonical forms fails with `InvalidRemoteUrl`, yet
`"git@github.com:/"` — which has an empty owner and an empty repository
and matches no canonical form — parses successfully to `("", "")`. -/
theorem parse_github_remote_cex :
    parseGithubRemote "git@github.com:/".data = .ok ([], []) ∧
      ¬ ∃ o r, CanonicalRemote "git@github.com:/".data o r := by
  refine ⟨rfl, ?_⟩
  rintro ⟨o, r, ho, hr, _, _, hforms⟩
  have hov : 0 < o.length := List.length_pos.mpr ho
  have hrv : 0 < r.length := List.length_pos.mpr hr
  have e0 : ("git@github.com:/".data).length = 16 := rfl
  have e1 : sshPre.length = 15 := rfl
  have e2 : httpsPre.length = 19 := rfl
  have e3 : httpPre.length = 18 := rfl
  have e4 : (".git".data).length = 4 := rfl
  rcases hforms with h | h | h | h | h | h <;>
  · have hL := congrArg List.length h
    rw [e0] at hL
    simp only [List.length_append, List.length_cons, e1, e2, e3, e4] at hL
    omega

/-- C8 (amended): `parse_github_remote` extracts `(owner, repo)` from every
canonical URL — `git@github.com:o/r[.git]` and `http(s)://github.com/o/r[.git]`
with slash-free components whose non-`.git` form does not itself end in
`.git` — but the converse direction of the claim fails: inputs outside the
canonical forms can also parse (see the counterexample), because the code
only checks a prefix and the presence of a slash. -/
theorem parse_github_remote_canonical (o r : List Char) (ho : '/' ∉ o)
    (hs : ¬ (".git".data <:+ (o ++ '/' :: r))) :
    parseGithubRemote (sshPre ++ (o ++ '/' :: r)) = .ok (o, r) ∧
    parseGithubRemote (sshPre ++ ((o ++ '/' :: r) ++ ".git".data)) = .ok (o, r) ∧
    parseGithubRemote (httpsPre ++ (o ++ '/' :: r)) = .ok (o, r) ∧
    parseGithubRemote (httpsPre ++ ((o ++ '/' :: r) ++ ".git".data)) = .ok (o, r) ∧
    parseGithubRemote (httpPre ++ (o ++ '/' :: r)) = .ok (o, r) ∧
    parseGithubRemote (httpPre ++ ((o ++ '/' :: r) ++ ".git".data)) = .ok (o, r) :=
  ⟨parse_ssh_plain ho hs, parse_ssh_git ho, parse_https_plain ho hs,
    parse_https_git ho, parse_http_plain ho hs, parse_http_git ho⟩

/-- Witness for the amended C8 at owner `octo`, repository `hello`. -/
theorem parse_github_remote_canonical_witness :
    parseGithubRemote (sshPre ++ ("octo".data ++ '/' :: "hello".data)) = .ok ("octo".data, "hello".data) ∧
    parseGithubRemote (sshPre ++ (("octo".data ++ '/' :: "hello".data) ++ ".git".data)) = .ok ("octo".data, "hello".data) ∧
    parseGithubRemote (httpsPre ++ ("octo".data ++ '/' :: "hello".data)) = .ok ("octo".data, "hello".data) ∧
    parseGithubRemote (httpsPre ++ (("octo".data ++ '/' :: "hello".data) ++ ".git".data)) = .ok ("octo".data, "hello".data) ∧
    parseGithubRemote (httpPre ++ ("octo".data ++ '/' :: "hello".data)) = .ok ("octo".data, "hello".data) ∧
    parseGithubRemote (httpPre ++ (("octo".data ++ '/' :: "hello".data) ++ ".git".data)) = .ok ("octo".data, "hello".data) :=
  parse_github_remote_canonical "octo".data "hello".data (by decide) (by decide)

end Rung

namespace Rung

/-! ## C7: `is_clean` counts staged/modified tracked files only -/

theorem specDirtyTracked_iff (e : FileStatus) :
    specDirtyTracked e = true ↔ e.wtNew = false ∧ dirtyMask e = true := by
  unfold specDirtyTracked dirtyMask
  cases hw : e.wtNew
  · simp
    tauto
  · simp

/-- C7: `is_clean` returns true iff no tracked file is modified or staged —
untracked files (entries whose only worktree state is `WT_NEW`) never make
it false — and `require_clean` fails with `DirtyWorkingDirectory` exactly
when `is_clean` is false. -/
theorem is_clean_tracked_only (entries : List FileStatus) :
    (isClean entries = true ↔ ¬ ∃ e ∈ entries, specDirtyTracked e = true) ∧
    (requireClean entries = .error .dirtyWorkingDirectory ↔ isClean entries = false) := by
  constructor
  · simp only [isClean, statusEntries, List.all_eq_true, List.mem_filter]
    constructor
    · rintro h ⟨e, he, hd⟩
      rw [specDirtyTracked_iff] at hd
      have := h e ⟨he, by simp [hd.1]⟩
      simp [hd.2] at this
    · intro h e he
      obtain ⟨he1, he2⟩ := he
      by_contra hd
      simp only [Bool.not_eq_true', Bool.not_eq_false] at hd
      apply h
      refine ⟨e, he1, ?_⟩
      rw [specDirtyTracked_iff]
      refine ⟨?_, by simpa using hd⟩
      simpa using he2
  · unfold requireClean
    cases h : isClean entries <;> simp [h]

/-! ## C1: `undo_sync` is an unimplemented stub (code bug) -/

/-- C1 (code bug): `undo_sync` is specified to reset every branch recorded
in the latest Backup to its saved tip and then delete the Backup; the
source's own step comment says the same, but the reset loop is a TODO.  At
a state where `feature-a` sits at `sampleShaB` while the latest backup
records `sampleShaA`, `undo_sync` succeeds, deletes the backup, and leaves
the branch tip untouched. -/
theorem undo_sync_code_bug :
    undoSync undoGitC1 undoStoreC1
      = (.ok (), undoGitC1, undoStoreC1.deleteBackup "b1", [.deleteBackup "b1"]) ∧
    alookup undoGitC1.branches "feature-a" = some sampleShaB ∧
    sampleShaA ≠ sampleShaB ∧
    (undoStoreC1.deleteBackup "b1").backups = [] :=
  ⟨rfl, rfl, by decide, rfl⟩

end Rung

namespace Rung

/-! ## C2: `abort_sync` restores branches and clears state, but keeps the backup -/

theorem abortResets_lookup_of_not_mem :
    ∀ {entries : List (String × String)} {g : Git} {q : String},
    q ∉ entries.map Prod.fst →
    alookup (abortResets g entries).2.1.branches q = alookup g.branches q := by
  intro entries
  induction entries with
  | nil => intro g q _; rfl
  | cons p rest ih =>
    intro g q hq
    obtain ⟨b, sha⟩ := p
    simp only [List.map_cons, List.mem_cons] at hq
    push_neg at hq
    obtain ⟨hq1, hq2⟩ := hq
    unfold abortResets
    cases ho : oidParse sha with
    | none => rfl
    | some oid =>
      simp only
      unfold Git.resetBranch
      by_cases hobj : oid ∈ g.objects
      · rw [if_pos hobj]
        simp only
        rw [ih hq2]
        unfold Git.setTip
        simp only
        exact alookup_aupdate_other _ _ _ _ (fun h => hq1 h.symm)
      · rw [if_neg hobj]
    
theorem abortResets_preserve (entries : List (String × String)) :
    ∀ g : Git, (abortResets g entries).2.1.rebasing = g.rebasing ∧
      (abortResets g entries).2.1.objects = g.objects := by
  induction entries with
  | nil => intro g; exact ⟨rfl, rfl⟩
  | cons p rest ih =>
    intro g
    obtain ⟨b, sha⟩ := p
    unfold abortResets
    cases ho : oidParse sha with
    | none => exact ⟨rfl, rfl⟩
    | some oid =>
      simp only
      unfold Git.resetBranch
      by_cases hobj : oid ∈ g.objects
      · rw [if_pos hobj]
        simp only
        exact ih _
      · rw [if_neg hobj]
        exact ⟨rfl, rfl⟩

theorem abortResets_ok_and_resets :
    ∀ {entries : List (String × String)}, (entries.map Prod.fst).Nodup →
    ∀ {g : Git}, (∀ p ∈ entries, oidParse p.2 = some p.2 ∧ p.2 ∈ g.objects) →
    (abortResets g entries).1 = .ok () ∧
    ∀ p ∈ entries, alookup (abortResets g entries).2.1.branches p.1 = some p.2 := by
  intro entries
  induction entries with
  | nil => intro _ g _; exact ⟨rfl, by simp⟩
  | cons p rest ih =>
    intro hnodup g hok
    obtain ⟨b, sha⟩ := p
    have hhead := hok (b, sha) (List.mem_cons_self _ _)
    have hrest : ∀ p ∈ rest, oidParse p.2 = some p.2 ∧ p.2 ∈ g.objects :=
      fun p hp => hok p (List.mem_cons_of_mem _ hp)
    simp only [List.map_cons, List.nodup_cons] at hnodup
    obtain ⟨hbno, hnodup'⟩ := hnodup
    unfold abortResets
    rw [hhead.1]
    simp only
    unfold Git.resetBranch
    rw [if_pos hhead.2]
    simp only
    have hrest' : ∀ p ∈ rest, oidParse p.2 = some p.2 ∧ p.2 ∈ (g.setTip b sha).objects :=
      fun p hp => hrest p hp
    obtain ⟨ihok, ihlook⟩ := ih hnodup' hrest'
    refine ⟨ihok, ?_⟩
    intro q hq
    rcases List.mem_cons.mp hq with h | h
    · subst h
      rw [abortResets_lookup_of_not_mem hbno]
      unfold Git.setTip
      exact alookup_aupdate_self _ _ _
    · exact ihlook q h

/-- C2 counterexample: the claim says `abort_sync` "deletes Backup B so
that the backup is absent afterwards", but the source never calls
`delete_backup`: at a concrete mid-sync state, abort succeeds, clears
`sync.json`, and the backup is still loadable. -/
theorem abort_sync_backup_retained_cex :
    (abortSync abortGitC2 abortStoreC2).1 = .ok () ∧
    (abortSync abortGitC2 abortStoreC2).2.2.1.sync = none ∧
    (abortSync abortGitC2 abortStoreC2).2.2.1.loadBackup "b1"
      = some [("feature-a", sampleShaA)] :=
  ⟨rfl, rfl, rfl⟩

/-- C2 (amended): whenever a sync is in progress referencing backup B,
`abort_sync` aborts any in-progress rebase, resets every entry of B to its
saved commit via `reset_branch`, and clears the sync state so that
`sync.json` is absent — but it retains the Backup rather than deleting it. -/
theorem abort_sync_restores (g : Git) (store : Store) (ss : SyncState)
    (entries : List (String × String))
    (hss : store.sync = some ss)
    (hb : store.loadBackup ss.backupId = some entries)
    (hnodup : (entries.map Prod.fst).Nodup)
    (hok : ∀ p ∈ entries, oidParse p.2 = some p.2 ∧ p.2 ∈ g.objects) :
    (abortSync g store).1 = .ok () ∧
    (abortSync g store).2.1.rebasing = false ∧
    (abortSync g store).2.2.1.sync = none ∧
    (abortSync g store).2.2.1.backups = store.backups ∧
    ∀ p ∈ entries, alookup (abortSync g store).2.1.branches p.1 = some p.2 := by
  unfold abortSync
  rw [hss]
  simp only [hb]
  have hg1 : ∀ g1 : Git, g1.objects = g.objects →
      (∀ p ∈ entries, oidParse p.2 = some p.2 ∧ p.2 ∈ g1.objects) := by
    intro g1 hobj p hp
    rw [hobj]
    exact hok p hp
  by_cases hre : g.rebasing
  · simp only [hre, if_true]
    obtain ⟨hok1, hlook⟩ :=
      abortResets_ok_and_resets hnodup (hg1 { g with rebasing := false } rfl)
    rcases hab : abortResets { g with rebasing := false } entries with ⟨res, g2, ev⟩
    rw [hab] at hok1 hlook
    simp only at hok1
    subst hok1
    have hpre := abortResets_preserve entries { g with rebasing := false }
    rw [hab] at hpre
    exact ⟨rfl, hpre.1, rfl, rfl, fun p hp => hlook p hp⟩
  · have hre' : g.rebasing = false := by simpa using hre
    rw [hre']
    simp only [Bool.false_eq_true, if_false]
    obtain ⟨hok1, hlook⟩ := abortResets_ok_and_resets hnodup (hg1 g rfl)
    rcases hab : abortResets g entries with ⟨res, g2, ev⟩
    rw [hab] at hok1 hlook
    simp only at hok1
    subst hok1
    have hpre := abortResets_preserve entries g
    rw [hab] at hpre
    refine ⟨rfl, ?_, rfl, rfl, fun p hp => hlook p hp⟩
    simp only
    rw [hpre.1, hre']

/-- Witness for the amended C2 at the concrete mid-sync state. -/
theorem abort_sync_restores_witness :
    (abortSync abortGitC2 abortStoreC2).1 = .ok () ∧
    (abortSync abortGitC2 abortStoreC2).2.1.rebasing = false ∧
    (abortSync abortGitC2 abortStoreC2).2.2.1.sync = none ∧
    (abortSync abortGitC2 abortStoreC2).2.2.1.backups = abortStoreC2.backups ∧
    ∀ p ∈ [("feature-a", sampleShaA)],
      alookup (abortSync abortGitC2 abortStoreC2).2.1.branches p.1 = some p.2 :=
  abort_sync_restores abortGitC2 abortStoreC2 ⟨"b1", [], "feature-a", []⟩
    [("feature-a", sampleShaA)] rfl rfl (by decide) (by decide)

end Rung

namespace Rung

/-! ## C4: the sync plan holds exactly the diverged branches, in stack order -/

theorem createSyncPlanAux_eq (g : Git) (mbF : String → String → String)
    (tips : String → String) (base : String) :
    ∀ bs : List StackBranch,
    (∀ b ∈ bs, alookup g.branches b.name = some (tips b.name) ∧
      alookup g.branches (b.parent.getD base) = some (tips (b.parent.getD base))) →
    createSyncPlanAux g (fun x y => some (mbF x y)) base bs =
      .ok (bs.filterMap (fun b =>
        if mbF (tips b.name) (tips (b.parent.getD base)) ≠ tips (b.parent.getD base) then
          some ⟨b.name, mbF (tips b.name) (tips (b.parent.getD base)),
            tips (b.parent.getD base)⟩
        else none)) := by
  intro bs
  induction bs with
  | nil => intro _; rfl
  | cons b rest ih =>
    intro hlk
    have hb := hlk b (List.mem_cons_self _ _)
    have hrest := fun b' hb' => hlk b' (List.mem_cons_of_mem _ hb')
    have hbe : g.branchExists (b.parent.getD base) = true := by
      unfold Git.branchExists
      rw [hb.2]
      rfl
    have hbc : g.branchCommit b.name = .ok (tips b.name) := by
      unfold Git.branchCommit
      rw [hb.1]
    have hpc : g.branchCommit (b.parent.getD base) = .ok (tips (b.parent.getD base)) := by
      unfold Git.branchCommit
      rw [hb.2]
    unfold createSyncPlanAux
    rw [if_neg (fun hcond => hcond.1 hbe)]
    rw [hbc, hpc, ih hrest]
    by_cases hdiv : mbF (tips b.name) (tips (b.parent.getD base)) ≠ tips (b.parent.getD base)
    · simp [List.filterMap_cons, hdiv]
    · push_neg at hdiv
      simp [List.filterMap_cons, hdiv]

/-- C4: for every stack and base branch (all tips and merge bases
defined), `create_sync_plan` yields exactly one `SyncAction` — carrying
the merge base as `old_base` and the parent tip as `new_base` — for each
branch whose merge-base with its parent differs from the parent's tip, in
stack order, and none for the others; and an empty plan makes
`execute_sync` return `AlreadySynced` with no repository or store
mutation. -/
theorem create_sync_plan_characterization (g : Git) (mbF : String → String → String)
    (tips : String → String) (stack : Stack) (base : String)
    (htips : ∀ b ∈ stack.branches, alookup g.branches b.name = some (tips b.name) ∧
      alookup g.branches (b.parent.getD base) = some (tips (b.parent.getD base))) :
    createSyncPlan g (fun x y => some (mbF x y)) stack base =
      .ok ⟨stack.branches.filterMap (fun b =>
        if mbF (tips b.name) (tips (b.parent.getD base)) ≠ tips (b.parent.getD base) then
          some ⟨b.name, mbF (tips b.name) (tips (b.parent.getD base)),
            tips (b.parent.getD base)⟩
        else none)⟩ ∧
    ∀ (oracle : RebaseOracle) (store : Store) (freshId : String) (plan : SyncPlan),
      plan.branches = [] →
      executeSync oracle g store freshId plan = ⟨.ok .alreadySynced, g, store, []⟩ := by
  constructor
  · unfold createSyncPlan
    rw [createSyncPlanAux_eq g mbF tips base stack.branches htips]
  · intro oracle store freshId plan hempty
    unfold executeSync
    rw [hempty]
    rfl

/-- Witness for C4: one stacked branch diverged from a moved `main`
produces exactly one action; the empty plan is `AlreadySynced`. -/
theorem create_sync_plan_characterization_witness :
    createSyncPlan planGitC4 (fun x y => some (mbC4 x y)) stackC4 "main"
      = .ok ⟨[⟨"feature-a", sampleShaC, sampleShaB⟩]⟩ ∧
    executeSync oracleC4 planGitC4 storeC4 "b1" ⟨[]⟩
      = ⟨.ok .alreadySynced, planGitC4, storeC4, []⟩ :=
  ⟨((create_sync_plan_characterization planGitC4 mbC4 tipsC4 stackC4 "main"
      (by decide)).1).trans (by rfl),
    (create_sync_plan_characterization planGitC4 mbC4 tipsC4 stackC4 "main"
      (by decide)).2 oracleC4 storeC4 "b1" ⟨[]⟩ rfl⟩

end Rung

namespace Rung

/-! ## C5: backup and sync state persist before the first checkout/rebase -/

theorem collectTips_eq (g : Git) (tips : String → String) :
    ∀ as : List SyncAction,
    (∀ a ∈ as, alookup g.branches a.branch = some (tips a.branch)) →
    collectTips g as = .ok (as.map (fun a => (a.branch, tips a.branch))) := by
  intro as
  induction as with
  | nil => intro _; rfl
  | cons a rest ih =>
    intro h
    have ha := h a (List.mem_cons_self _ _)
    have hbc : g.branchCommit a.branch = .ok (tips a.branch) := by
      unfold Git.branchCommit
      rw [ha]
    unfold collectTips
    rw [hbc, ih (fun x hx => h x (List.mem_cons_of_mem _ hx))]
    rfl

/-- C5: on a non-empty plan, `execute_sync` persists a Backup holding
every planned branch's pre-sync tip and saves the initial SyncState
strictly before the first checkout or rebase: the trace starts with
exactly those two persistence events, and any checkout or rebase event
sits at index ≥ 2. -/
theorem backup_before_first_rebase (oracle : RebaseOracle) (g : Git) (store : Store)
    (freshId : String) (plan : SyncPlan) (tips : String → String)
    (hne : plan.branches ≠ [])
    (htips : ∀ a ∈ plan.branches, alookup g.branches a.branch = some (tips a.branch)) :
    (∃ rest,
      (executeSync oracle g store freshId plan).trace =
        .createBackup freshId (plan.branches.map (fun a => (a.branch, tips a.branch)))
          :: .saveSync (SyncState.new freshId (plan.branches.map (fun a => a.branch)))
          :: rest) ∧
    (∀ a ∈ plan.branches,
      (a.branch, tips a.branch) ∈ plan.branches.map (fun a => (a.branch, tips a.branch))) ∧
    (∀ (i : Nat) (e : Event), ((executeSync oracle g store freshId plan).trace)[i]? = some e →
      ((∃ b, e = .checkout b) ∨ ∃ b t, e = .rebase b t) → 2 ≤ i) := by
  have hie : plan.branches.isEmpty = false := by
    cases hp : plan.branches with
    | nil => exact absurd hp hne
    | cons x xs => rfl
  have hred : executeSync oracle g store freshId plan =
      ⟨(executeSyncLoop oracle freshId (g.currentBranch).toOption g
          ((store.createBackup freshId (plan.branches.map (fun a => (a.branch, tips a.branch)))).saveSync
            (SyncState.new freshId (plan.branches.map (fun a => a.branch))))
          (SyncState.new freshId (plan.branches.map (fun a => a.branch))) plan.branches).result,
        (executeSyncLoop oracle freshId (g.currentBranch).toOption g
          ((store.createBackup freshId (plan.branches.map (fun a => (a.branch, tips a.branch)))).saveSync
            (SyncState.new freshId (plan.branches.map (fun a => a.branch))))
          (SyncState.new freshId (plan.branches.map (fun a => a.branch))) plan.branches).git,
        (executeSyncLoop oracle freshId (g.currentBranch).toOption g
          ((store.createBackup freshId (plan.branches.map (fun a => (a.branch, tips a.branch)))).saveSync
            (SyncState.new freshId (plan.branches.map (fun a => a.branch))))
          (SyncState.new freshId (plan.branches.map (fun a => a.branch))) plan.branches).store,
        .createBackup freshId (plan.branches.map (fun a => (a.branch, tips a.branch)))
          :: .saveSync (SyncState.new freshId (plan.branches.map (fun a => a.branch)))
          :: (executeSyncLoop oracle freshId (g.currentBranch).toOption g
            ((store.createBackup freshId (plan.branches.map (fun a => (a.branch, tips a.branch)))).saveSync
              (SyncState.new freshId (plan.branches.map (fun a => a.branch))))
            (SyncState.new freshId (plan.branches.map (fun a => a.branch))) plan.branches).trace⟩ := by
    unfold executeSync
    rw [hie]
    simp only [Bool.false_eq_true, if_false]
    rw [collectTips_eq g tips plan.branches htips]
  refine ⟨⟨_, by rw [hred]⟩, fun a ha => List.mem_map.mpr ⟨a, ha, rfl⟩, ?_⟩
  intro i e hi hcl
  by_contra hlt
  push_neg at hlt
  interval_cases i
  · rw [hred] at hi
    simp only [List.getElem?_cons_zero, Option.some.injEq] at hi
    rcases hcl with ⟨b, he⟩ | ⟨b, t, he⟩ <;> rw [he] at hi <;> exact Event.noConfusion hi
  · rw [hred] at hi
    simp only [List.getElem?_cons_succ, List.getElem?_cons_zero, Option.some.injEq] at hi
    rcases hcl with ⟨b, he⟩ | ⟨b, t, he⟩ <;> rw [he] at hi <;> exact Event.noConfusion hi

/-- Witness for C5 at the one-action plan of the sample repository. -/
theorem backup_before_first_rebase_witness :
    (∃ rest,
      (executeSync oracleC4 planGitC4 storeC4 "b1"
          ⟨[⟨"feature-a", sampleShaC, sampleShaB⟩]⟩).trace =
        .createBackup "b1" ([(⟨"feature-a", sampleShaC, sampleShaB⟩ : SyncAction)].map
            (fun a => (a.branch, tipsC4 a.branch)))
          :: .saveSync (SyncState.new "b1" ([(⟨"feature-a", sampleShaC, sampleShaB⟩ : SyncAction)].map
            (fun a => a.branch)))
          :: rest) ∧
    (∀ a ∈ [(⟨"feature-a", sampleShaC, sampleShaB⟩ : SyncAction)],
      (a.branch, tipsC4 a.branch) ∈ [(⟨"feature-a", sampleShaC, sampleShaB⟩ : SyncAction)].map
        (fun a => (a.branch, tipsC4 a.branch))) ∧
    (∀ (i : Nat) (e : Event),
      ((executeSync oracleC4 planGitC4 storeC4 "b1"
          ⟨[⟨"feature-a", sampleShaC, sampleShaB⟩]⟩).trace)[i]? = some e →
      ((∃ b, e = .checkout b) ∨ ∃ b t, e = .rebase b t) → 2 ≤ i) :=
  backup_before_first_rebase oracleC4 planGitC4 storeC4 "b1"
    ⟨[⟨"feature-a", sampleShaC, sampleShaB⟩]⟩ tipsC4 (by decide) (by decide)

end Rung

namespace Rung

/-! ## C3: a rebase conflict pauses the sync instead of failing it -/

theorem checkout_of_exists {g : Git} {n : String} (h : g.branchExists n = true) :
    g.checkout n = .ok { g with current := some n } := by
  unfold Git.checkout
  rw [if_pos h]

theorem executeSyncLoop_cons_conflict {oracle : RebaseOracle} {bid : String}
    {orig : Option String} {g : Git} {store : Store} {ss : SyncState} {files : List String}
    (a : SyncAction) (rest : List SyncAction)
    (hex : g.branchExists a.branch = true)
    (hoid : oidParse a.newBase = some a.newBase)
    (hconf : oracle a.branch a.newBase = .conflict files) :
    executeSyncLoop oracle bid orig g store ss (a :: rest) =
      ⟨.ok (.paused a.branch files bid),
        { g with current := some a.branch, rebasing := true },
        store.saveSync ss,
        [.checkout a.branch, .rebase a.branch a.newBase, .saveSync ss]⟩ := by
  simp only [executeSyncLoop, checkout_of_exists hex, hoid, hconf]

theorem executeSyncLoop_cons_success {oracle : RebaseOracle} {bid : String}
    {orig : Option String} {g : Git} {store : Store} {ss : SyncState} {t : String}
    (a : SyncAction) (rest : List SyncAction)
    (hex : g.branchExists a.branch = true)
    (hoid : oidParse a.newBase = some a.newBase)
    (hsucc : oracle a.branch a.newBase = .success t) :
    executeSyncLoop oracle bid orig g store ss (a :: rest) =
      ⟨(executeSyncLoop oracle bid orig (({ g with current := some a.branch} : Git).setTip a.branch t)
          (store.saveSync ss.advance) ss.advance rest).result,
        (executeSyncLoop oracle bid orig (({ g with current := some a.branch} : Git).setTip a.branch t)
          (store.saveSync ss.advance) ss.advance rest).git,
        (executeSyncLoop oracle bid orig (({ g with current := some a.branch} : Git).setTip a.branch t)
          (store.saveSync ss.advance) ss.advance rest).store,
        .checkout a.branch :: .rebase a.branch a.newBase :: .saveSync ss.advance ::
          (executeSyncLoop oracle bid orig (({ g with current := some a.branch} : Git).setTip a.branch t)
            (store.saveSync ss.advance) ss.advance rest).trace⟩ := by
  simp only [executeSyncLoop, checkout_of_exists hex, hoid, hsucc]

theorem executeSyncLoop_conflict (oracle : RebaseOracle) (bid : String) (orig : Option String)
    (a : SyncAction) (rest : List SyncAction) (files : List String)
    (hoida : oidParse a.newBase = some a.newBase)
    (hconf : oracle a.branch a.newBase = .conflict files) :
    ∀ (done : List SyncAction), ∀ (g : Git) (store : Store) (ss : SyncState),
    (∀ x ∈ done ++ a :: rest, g.branchExists x.branch = true) →
    (∀ x ∈ done, oidParse x.newBase = some x.newBase ∧
      ∃ t, oracle x.branch x.newBase = .success t) →
    ss.currentBranch = ((done ++ a :: rest).map (fun x => x.branch)).headD "" →
    ss.remaining = ((done ++ a :: rest).map (fun x => x.branch)).tail →
    (executeSyncLoop oracle bid orig g store ss (done ++ a :: rest)).result
        = .ok (.paused a.branch files bid) ∧
    ∃ completedF,
      (executeSyncLoop oracle bid orig g store ss (done ++ a :: rest)).store.sync
        = some ⟨ss.backupId, completedF, a.branch, rest.map (fun x => x.branch)⟩ := by
  intro done
  induction done with
  | nil =>
    intro g store ss hex hsucc hcur hrem
    simp only [List.nil_append] at *
    have hexa : g.branchExists a.branch = true := hex a (List.mem_cons_self _ _)
    rw [executeSyncLoop_cons_conflict a rest hexa hoida hconf]
    refine ⟨rfl, ss.completed, ?_⟩
    show some ss = _
    have h1 : ss.currentBranch = a.branch := by simpa using hcur
    have h2 : ss.remaining = rest.map (fun x => x.branch) := by simpa using hrem
    cases ss
    simp only at h1 h2
    rw [h1, h2]
  | cons d done' ih =>
    intro g store ss hex hsucc hcur hrem
    have hd := hsucc d (List.mem_cons_self _ _)
    obtain ⟨hoidd, t, ht⟩ := hd
    have hexd : g.branchExists d.branch = true := hex d (List.mem_cons_self _ _)
    rw [List.cons_append]
    rw [executeSyncLoop_cons_success d (done' ++ a :: rest) hexd hoidd ht]
    have hex' : ∀ x ∈ done' ++ a :: rest,
        (({ g with current := some d.branch} : Git).setTip d.branch t).branchExists x.branch
          = true := by
      intro x hx
      apply branchExists_setTip
      exact hex x (List.mem_cons_of_mem _ hx)
    have hsucc' : ∀ x ∈ done', oidParse x.newBase = some x.newBase ∧
        ∃ t', oracle x.branch x.newBase = .success t' :=
      fun x hx => hsucc x (List.mem_cons_of_mem _ hx)
    have hcur' : ss.advance.currentBranch
        = ((done' ++ a :: rest).map (fun x => x.branch)).headD "" := by
      unfold SyncState.advance
      simp only
      rw [hrem]
      simp
    have hrem' : ss.advance.remaining
        = ((done' ++ a :: rest).map (fun x => x.branch)).tail := by
      unfold SyncState.advance
      simp only
      rw [hrem]
      simp
    have := ih (({ g with current := some d.branch} : Git).setTip d.branch t)
      ((store.saveSync ss.advance)) ss.advance hex' hsucc' hcur' hrem'
    exact this

end Rung

namespace Rung

theorem continueSyncLoop_cons_conflict {oracle : RebaseOracle} {bid : String} {g : Git}
    {store : Store} {ss : SyncState} {files : List String} (b : String) (rest : List String)
    (bi : StackBranch) (pc : String)
    (hex : g.branchExists b = true)
    (hfind : store.stack.findBranch b = some bi)
    (hpc : alookup g.branches (bi.parent.getD "main") = some pc)
    (hconf : oracle b pc = .conflict files) :
    continueSyncLoop oracle bid g store ss (b :: rest) =
      ⟨.ok (.paused b files bid), { g with current := some b, rebasing := true },
        store.saveSync ss, [.checkout b, .rebase b pc, .saveSync ss]⟩ := by
  have hbc : ({ g with current := some b } : Git).branchCommit (bi.parent.getD "main")
      = .ok pc := by
    unfold Git.branchCommit
    rw [show ({ g with current := some b } : Git).branches = g.branches from rfl, hpc]
  simp only [continueSyncLoop, checkout_of_exists hex, hfind, hbc, hconf]

theorem continueSyncLoop_cons_success {oracle : RebaseOracle} {bid : String} {g : Git}
    {store : Store} {ss : SyncState} {nt : String} (b : String) (rest : List String)
    (bi : StackBranch) (pc : String)
    (hex : g.branchExists b = true)
    (hfind : store.stack.findBranch b = some bi)
    (hpc : alookup g.branches (bi.parent.getD "main") = some pc)
    (hsucc : oracle b pc = .success nt) :
    continueSyncLoop oracle bid g store ss (b :: rest) =
      ⟨(continueSyncLoop oracle bid (({ g with current := some b } : Git).setTip b nt)
          (store.saveSync ss.advance) ss.advance rest).result,
        (continueSyncLoop oracle bid (({ g with current := some b } : Git).setTip b nt)
          (store.saveSync ss.advance) ss.advance rest).git,
        (continueSyncLoop oracle bid (({ g with current := some b } : Git).setTip b nt)
          (store.saveSync ss.advance) ss.advance rest).store,
        .checkout b :: .rebase b pc :: .saveSync ss.advance ::
          (continueSyncLoop oracle bid (({ g with current := some b } : Git).setTip b nt)
            (store.saveSync ss.advance) ss.advance rest).trace⟩ := by
  have hbc : ({ g with current := some b } : Git).branchCommit (bi.parent.getD "main")
      = .ok pc := by
    unfold Git.branchCommit
    rw [show ({ g with current := some b } : Git).branches = g.branches from rfl, hpc]
  simp only [continueSyncLoop, checkout_of_exists hex, hfind, hbc, hsucc]

theorem continueSyncLoop_conflict (oracle : RebaseOracle) (bid : String) (b : String)
    (files : List String) (rest : List String)
    (hconfb : ∀ t, oracle b t = .conflict files) :
    ∀ (done : List String), ∀ (g : Git) (store : Store) (ss : SyncState),
    (∀ x ∈ done ++ b :: rest, g.branchExists x = true) →
    (∀ x ∈ done ++ b :: rest, ∃ bi, store.stack.findBranch x = some bi ∧
      (alookup g.branches (bi.parent.getD "main")).isSome = true) →
    (∀ x ∈ done, ∀ t, ∃ nt, oracle x t = .success nt) →
    (continueSyncLoop oracle bid g store ss (done ++ b :: rest)).result
        = .ok (.paused b files bid) ∧
    ∃ ssf, (continueSyncLoop oracle bid g store ss (done ++ b :: rest)).store.sync
        = some ssf := by
  intro done
  induction done with
  | nil =>
    intro g store ss hex hfind _
    simp only [List.nil_append] at *
    obtain ⟨bi, hfb, hpcs⟩ := hfind b (List.mem_cons_self _ _)
    obtain ⟨pc, hpc⟩ := Option.isSome_iff_exists.mp hpcs
    rw [continueSyncLoop_cons_conflict b rest bi pc (hex b (List.mem_cons_self _ _)) hfb hpc
      (hconfb pc)]
    exact ⟨rfl, ss, rfl⟩
  | cons d done' ih =>
    intro g store ss hex hfind hsucc
    obtain ⟨bi, hfb, hpcs⟩ := hfind d (List.mem_cons_self _ _)
    obtain ⟨pc, hpc⟩ := Option.isSome_iff_exists.mp hpcs
    obtain ⟨nt, hnt⟩ := hsucc d (List.mem_cons_self _ _) pc
    rw [List.cons_append]
    rw [continueSyncLoop_cons_success d (done' ++ b :: rest) bi pc
      (hex d (List.mem_cons_self _ _)) hfb hpc hnt]
    have hex' : ∀ x ∈ done' ++ b :: rest,
        (({ g with current := some d } : Git).setTip d nt).branchExists x = true := by
      intro x hx
      apply branchExists_setTip
      exact hex x (List.mem_cons_of_mem _ hx)
    have hfind' : ∀ x ∈ done' ++ b :: rest,
        ∃ bi', (store.saveSync ss.advance).stack.findBranch x = some bi' ∧
          (alookup (({ g with current := some d } : Git).setTip d nt).branches
            (bi'.parent.getD "main")).isSome = true := by
      intro x hx
      obtain ⟨bi', hfb', hpcs'⟩ := hfind x (List.mem_cons_of_mem _ hx)
      refine ⟨bi', hfb', ?_⟩
      exact alookup_isSome_aupdate _ _ _ _ hpcs'
    have hsucc' : ∀ x ∈ done', ∀ t, ∃ nt', oracle x t = .success nt' :=
      fun x hx => hsucc x (List.mem_cons_of_mem _ hx)
    exact ih _ _ ss.advance hex' hfind' hsucc'

end Rung

namespace Rung

theorem executeSync_unfold (oracle : RebaseOracle) (g : Git) (store : Store)
    (freshId : String) (plan : SyncPlan) (tips : String → String)
    (hne : plan.branches ≠ [])
    (htips : ∀ a ∈ plan.branches, alookup g.branches a.branch = some (tips a.branch)) :
    executeSync oracle g store freshId plan =
      ⟨(executeSyncLoop oracle freshId (g.currentBranch).toOption g
          ((store.createBackup freshId (plan.branches.map (fun a => (a.branch, tips a.branch)))).saveSync
            (SyncState.new freshId (plan.branches.map (fun a => a.branch))))
          (SyncState.new freshId (plan.branches.map (fun a => a.branch))) plan.branches).result,
        (executeSyncLoop oracle freshId (g.currentBranch).toOption g
          ((store.createBackup freshId (plan.branches.map (fun a => (a.branch, tips a.branch)))).saveSync
            (SyncState.new freshId (plan.branches.map (fun a => a.branch))))
          (SyncState.new freshId (plan.branches.map (fun a => a.branch))) plan.branches).git,
        (executeSyncLoop oracle freshId (g.currentBranch).toOption g
          ((store.createBackup freshId (plan.branches.map (fun a => (a.branch, tips a.branch)))).saveSync
            (SyncState.new freshId (plan.branches.map (fun a => a.branch))))
          (SyncState.new freshId (plan.branches.map (fun a => a.branch))) plan.branches).store,
        .createBackup freshId (plan.branches.map (fun a => (a.branch, tips a.branch)))
          :: .saveSync (SyncState.new freshId (plan.branches.map (fun a => a.branch)))
          :: (executeSyncLoop oracle freshId (g.currentBranch).toOption g
            ((store.createBackup freshId (plan.branches.map (fun a => (a.branch, tips a.branch)))).saveSync
              (SyncState.new freshId (plan.branches.map (fun a => a.branch))))
            (SyncState.new freshId (plan.branches.map (fun a => a.branch))) plan.branches).trace⟩ := by
  have hie : plan.branches.isEmpty = false := by
    cases hp : plan.branches with
    | nil => exact absurd hp hne
    | cons x xs => rfl
  unfold executeSync
  rw [hie]
  simp only [Bool.false_eq_true, if_false]
  rw [collectTips_eq g tips plan.branches htips]

/-- C3: a rebase conflict is an expected outcome, not an error.  In
`execute_sync`, when rebasing a planned branch conflicts (after the
earlier actions succeeded), the sync state is saved with the conflicting
branch recorded as current and the branches after it remaining, and the
function returns `Ok (Paused {at_branch, conflict_files, backup_id})`; in
`continue_sync`, a conflict on one of the remaining branches likewise
returns `Ok Paused` with the sync state still on disk. -/
theorem rebase_conflict_pauses :
    (∀ (oracle : RebaseOracle) (g : Git) (store : Store) (freshId : String)
      (plan : SyncPlan) (tips : String → String) (done : List SyncAction) (a : SyncAction)
      (rest : List SyncAction) (files : List String),
      plan.branches = done ++ a :: rest →
      (∀ x ∈ plan.branches, alookup g.branches x.branch = some (tips x.branch)) →
      (∀ x ∈ done, oidParse x.newBase = some x.newBase ∧
        ∃ t, oracle x.branch x.newBase = .success t) →
      oidParse a.newBase = some a.newBase →
      oracle a.branch a.newBase = .conflict files →
      (executeSync oracle g store freshId plan).result
          = .ok (.paused a.branch files freshId) ∧
      ∃ completedF, (executeSync oracle g store freshId plan).store.sync
          = some ⟨freshId, completedF, a.branch, rest.map (fun x => x.branch)⟩) ∧
    (∀ (newTip : String) (oracle : RebaseOracle) (g : Git) (store : Store) (ss0 : SyncState)
      (done : List String) (b : String) (rest : List String) (files : List String),
      store.sync = some ss0 →
      ss0.advance.remaining = done ++ b :: rest →
      (∀ x ∈ done ++ b :: rest, g.branchExists x = true) →
      (∀ x ∈ done ++ b :: rest, ∃ bi, store.stack.findBranch x = some bi ∧
        (alookup g.branches (bi.parent.getD "main")).isSome = true) →
      (∀ x ∈ done, ∀ t, ∃ nt, oracle x t = .success nt) →
      (∀ t, oracle b t = .conflict files) →
      (continueSync (.success newTip) oracle g store).result
          = .ok (.paused b files ss0.backupId)) := by
  constructor
  · intro oracle g store freshId plan tips done a rest files hplan htips hdone hoida hconf
    have hne : plan.branches ≠ [] := by rw [hplan]; simp
    rw [executeSync_unfold oracle g store freshId plan tips hne htips]
    simp only
    rw [hplan]
    have hex : ∀ x ∈ done ++ a :: rest, g.branchExists x.branch = true := by
      intro x hx
      unfold Git.branchExists
      rw [htips x (by rw [hplan]; exact hx)]
      rfl
    exact executeSyncLoop_conflict oracle freshId (g.currentBranch).toOption a rest files
      hoida hconf done g _ (SyncState.new freshId ((done ++ a :: rest).map (fun x => x.branch)))
      hex hdone (by rfl) (by rfl)
  · intro newTip oracle g store ss0 done b rest files hss hrem hex hfind hsucc hconfb
    unfold continueSync
    rw [hss]
    cases hgc : g.current with
    | some cb =>
      simp only [hgc]
      rw [hrem]
      refine (continueSyncLoop_conflict oracle ss0.backupId b files rest hconfb done
        _ _ ss0.advance ?_ ?_ hsucc).1
      · intro x hx
        exact branchExists_setTip g cb newTip x (hex x hx)
      · intro x hx
        obtain ⟨bi, hfb, hpcs⟩ := hfind x hx
        exact ⟨bi, hfb, alookup_isSome_aupdate _ _ _ _ hpcs⟩
    | none =>
      simp only [hgc]
      rw [hrem]
      refine (continueSyncLoop_conflict oracle ss0.backupId b files rest hconfb done
        _ _ ss0.advance ?_ ?_ hsucc).1
      · intro x hx
        exact hex x hx
      · intro x hx
        obtain ⟨bi, hfb, hpcs⟩ := hfind x hx
        exact ⟨bi, hfb, hpcs⟩

/-- Witness for C3: a one-action plan whose rebase conflicts pauses with
the branch recorded, and a paused sync whose next processed remaining
branch conflicts pauses again. -/
theorem rebase_conflict_pauses_witness :
    ((executeSync oracleConfl planGitC4 storeC4 "b1"
        ⟨[⟨"feature-a", sampleShaC, sampleShaB⟩]⟩).result
        = .ok (.paused "feature-a" ["f.txt"] "b1") ∧
      ∃ completedF, (executeSync oracleConfl planGitC4 storeC4 "b1"
        ⟨[⟨"feature-a", sampleShaC, sampleShaB⟩]⟩).store.sync
        = some ⟨"b1", completedF, "feature-a", [].map (fun x : SyncAction => x.branch)⟩) ∧
    (continueSync (.success sampleShaD) oracleConfl contGitC3 contStoreC3).result
        = .ok (.paused "feature-c" ["f.txt"] "b1") :=
  ⟨rebase_conflict_pauses.1 oracleConfl planGitC4 storeC4 "b1"
      ⟨[⟨"feature-a", sampleShaC, sampleShaB⟩]⟩ tipsC4 [] ⟨"feature-a", sampleShaC, sampleShaB⟩
      [] ["f.txt"] rfl (by decide) (by simp) (by decide) rfl,
    rebase_conflict_pauses.2 sampleShaD oracleConfl contGitC3 contStoreC3
      ⟨"b1", [], "feature-a", ["feature-b", "feature-c"]⟩ [] "feature-c" [] ["f.txt"]
      rfl rfl (by decide)
      (by
        intro x hx
        simp only [List.nil_append, List.mem_cons, List.not_mem_nil, or_false] at hx
        subst hx
        exact ⟨⟨"feature-c", some "main", none⟩, rfl, rfl⟩)
      (by simp) (fun t => rfl)⟩

end Rung

namespace Rung

/-! ## C10: `create` on an existing branch fails before any mutation -/

/-- C10: when the requested branch name (explicit, or slugified from the
message) already exists in the repository, `create::run` fails with an
error before creating any git branch, and both the repository and the
persisted stack are left exactly as they were. -/
theorem create_existing_branch_no_mutation (g : Git) (store : Store) (freshOid : String)
    (nameArg messageArg : Option String) (n : String)
    (hres : resolveCreateName nameArg messageArg = some n)
    (hex : g.branchExists n = true) :
    ∃ e, createRun g store freshOid nameArg messageArg = (.error e, g, store) := by
  simp only [createRun, hres]
  cases hv : validateBranchNameS n with
  | error e => exact ⟨e, rfl⟩
  | ok u =>
    cases u
    cases hmsg : msgEmptyCheck messageArg with
    | true => exact ⟨.emptyMessage, rfl⟩
    | false =>
      cases hinit : store.initialized with
      | false => exact ⟨.notInitialized, rfl⟩
      | true =>
        cases hcb : g.currentBranch with
        | error e => exact ⟨e, rfl⟩
        | ok parent =>
          cases hvp : validateBranchNameS parent with
          | error e => exact ⟨e, by simp [hvp]⟩
          | ok u' =>
            cases u'
            exact ⟨.branchAlreadyExists n, by simp [hvp, hex]⟩

/-- Witness for C10: creating `feature-a` while it already exists. -/
theorem create_existing_branch_no_mutation_witness :
    ∃ e, createRun planGitC4 storeC4 sampleShaD (some "feature-a") none
      = (.error e, planGitC4, storeC4) :=
  create_existing_branch_no_mutation planGitC4 storeC4 sampleShaD (some "feature-a") none
    "feature-a" rfl (by decide)

end Rung

namespace Rung

/-! ## C6: merge-cleanup persists the reconciled stack immediately -/

/-- C6: once the forge merge of the current branch's PR succeeds,
`merge::run` persists the reconciled stack — every direct child re-parented
to the merged branch's parent and the merged branch removed — via
`save_stack` before any fetch, checkout, descendant rebase, push or ref
deletion: the trace begins with exactly `mergePr` followed by `saveStack`,
and the final store carries the reconciled stack whatever happens
afterwards, including failing descendant rebases. -/
theorem merge_persists_stack_first (g : Git) (store : Store) (oracle : ForgeOracle)
    (fuel : Nat) (method : String) (noDelete : Bool) (cur : String) (bi : StackBranch)
    (prNum : Nat) (url : String) (oldCommits : List (String × String))
    (hm : validMergeMethod method = true)
    (hinit : store.initialized = true)
    (hcur : g.current = some cur)
    (hfind : store.stack.findBranch cur = some bi)
    (hpr : bi.pr = some prNum)
    (hurl : g.originUrl = some url)
    (hparse : ∃ pr, parseGithubRemote url.data = .ok pr)
    (hold : collectOldCommits g cur (collectDescendants store.stack cur fuel) = .ok oldCommits)
    (hmerge : oracle.mergeOk = true) :
    (∃ rest, (mergeRun g store oracle fuel method noDelete).trace
        = .mergePr prNum
          :: .saveStack (stackAfterMerge store.stack cur (bi.parent.getD "main")) :: rest) ∧
    (mergeRun g store oracle fuel method noDelete).store.stack
        = stackAfterMerge store.stack cur (bi.parent.getD "main") := by
  rcases hparse with ⟨prr, hparse⟩
  have hcb : g.currentBranch = .ok cur := by
    unfold Git.currentBranch
    rw [hcur]
  simp only [mergeRun, hm, hinit, hcb, hfind, hpr, hurl, hparse, hold, hmerge,
    eq_self_iff_true, not_true, if_false, Bool.true_eq_false]
  split
  · exact ⟨⟨_, rfl⟩, rfl⟩
  · split
    · exact ⟨⟨_, rfl⟩, rfl⟩
    · split
      · exact ⟨⟨_, rfl⟩, rfl⟩
      · split
        · exact ⟨⟨_, rfl⟩, rfl⟩
        · exact ⟨⟨_, rfl⟩, rfl⟩

/-- Witness for C6: merging `feature-b`'s PR #11 with a failing descendant
rebase still persists the reconciled stack right after the merge. -/
theorem merge_persists_stack_first_witness :
    (∃ rest, (mergeRun mergeGitC6 mergeStoreC6 mergeOracleC6 5 "squash" false).trace
        = .mergePr 11
          :: .saveStack (stackAfterMerge mergeStoreC6.stack "feature-b" "main") :: rest) ∧
    (mergeRun mergeGitC6 mergeStoreC6 mergeOracleC6 5 "squash" false).store.stack
        = stackAfterMerge mergeStoreC6.stack "feature-b" "main" :=
  merge_persists_stack_first mergeGitC6 mergeStoreC6 mergeOracleC6 5 "squash" false
    "feature-b" ⟨"feature-b", none, some 11⟩ 11 "git@github.com:octo/hello.git"
    [("feature-b", sampleShaA), ("feature-c", sampleShaC)]
    (by decide) rfl rfl rfl rfl rfl ⟨("octo".data, "hello".data), rfl⟩ rfl rfl

end Rung
